import Mathlib

/-!
Verification development for the rubi Markdown ruby-annotation tool.

The Go source is shallowly embedded here:
* byte buffers (`[]byte` / `string`) are modelled as `List Char` (Go operates
  on the buffer only through indexing, slicing, length and concatenation, all
  of which are element-type agnostic; offsets in the model count list elements);
* Go `int` offsets are modelled as `Int`;
* fallible functions returning `([]byte, error)` are modelled as
  `Option (List Char)` (an error carries no payload used by callers);
* messages printed to stderr are modelled as an accumulated list of the
  terms they name;
* Go's `map[string]Term` is modelled as an association list
  `List (List Char × Term)`; its list order models one iteration order of the
  (unordered) Go map, so order-independence claims quantify over permutations;
* the goldmark Markdown parser is an external collaborator: the parsed AST is
  taken as an input of the processing function, exactly as the walker receives
  it from `md.Parser().Parse`.
-/

namespace Rubi

/-- Term is the dictionary entry record (fields term, yomi, ref of the Go
struct `Term`), with strings modelled as `List Char`. -/
structure Term where
  term : List Char
  yomi : List Char
  ref : List Char
deriving DecidableEq, Repr

/-- Patch mirrors the Go struct `Patch{Start, End int; NewText []byte}`. -/
structure Patch where
  Start : Int
  End : Int
  NewText : List Char
deriving DecidableEq, Repr

/-- insertPatch inserts a patch into a list sorted by ascending `Start`,
keeping the result sorted. -/
def insertPatch (p : Patch) : List Patch → List Patch
  | [] => [p]
  | q :: qs => if p.Start < q.Start then p :: q :: qs else q :: insertPatch p qs

/-- sortPatches models the `sort.Slice(patches, Start <)` call in
`ApplyPatches`: it produces a permutation of the input that is sorted by
ascending `Start` (Go's sort is unspecified on ties; this model is one of the
permitted outcomes). -/
def sortPatches (ps : List Patch) : List Patch := ps.foldr insertPatch []

/-- patchesValidate mirrors the validation loop of `ApplyPatches`: each patch
must satisfy the bounds check `!(p.Start < 0 || p.End > len(original) ||
p.Start > p.End)`, and each patch other than the first must satisfy
`!(p.Start < previous.End)`. -/
def patchesValidate (olen : Int) : List Patch → Bool
  | [] => true
  | p :: rest =>
    if p.Start < 0 ∨ p.End > olen ∨ p.Start > p.End then false
    else
      match rest with
      | [] => true
      | q :: _ => if q.Start < p.End then false else patchesValidate olen rest

/-- applyLoop mirrors the reconstruction loop of `ApplyPatches`: for each
patch write `original[lastIndex:p.Start]` then `p.NewText`, set
`lastIndex = p.End`; afterwards write `original[lastIndex:]`. -/
def applyLoop (original : List Char) : List Patch → Nat → List Char
  | [], lastIndex => original.drop lastIndex
  | p :: rest, lastIndex =>
      (original.take p.Start.toNat).drop lastIndex ++ p.NewText
        ++ applyLoop original rest p.End.toNat

/-- ApplyPatches embeds the Go function `ApplyPatches(original []byte,
patches []Patch) ([]byte, error)`: sort by `Start`, validate, rebuild;
`none` models the error return. -/
def ApplyPatches (original : List Char) (patches : List Patch) : Option (List Char) :=
  let sorted := sortPatches patches
  if patchesValidate (original.length : Int) sorted then
    some (applyLoop original sorted 0)
  else none

/-- overlap is the span-intersection relation of the specification:
`a.start < b.end and b.start < a.end`. -/
def overlap (a b : Patch) : Prop := a.Start < b.End ∧ b.Start < a.End

instance (a b : Patch) : Decidable (overlap a b) := by
  unfold overlap; infer_instance

theorem overlap_symm {a b : Patch} (h : overlap a b) : overlap b a := ⟨h.2, h.1⟩

/-- SortedByStart: the list is pairwise nondecreasing in `Start`. -/
def SortedByStart (l : List Patch) : Prop := l.Pairwise (fun a b => a.Start ≤ b.Start)

theorem insertPatch_perm (p : Patch) (l : List Patch) :
    List.Perm (insertPatch p l) (p :: l) := by
  induction l with
  | nil => simp [insertPatch]
  | cons q qs ih =>
    simp only [insertPatch]
    by_cases h : p.Start < q.Start
    · simp [h]
    · simp only [h, if_false]
      exact ((ih.cons q).trans (List.Perm.swap p q qs))

theorem sortPatches_perm (ps : List Patch) : List.Perm (sortPatches ps) ps := by
  induction ps with
  | nil => simp [sortPatches]
  | cons p rest ih =>
    simp only [sortPatches, List.foldr_cons]
    exact (insertPatch_perm p _).trans (ih.cons p)

theorem insertPatch_sorted {p : Patch} {l : List Patch} (h : SortedByStart l) :
    SortedByStart (insertPatch p l) := by
  induction l with
  | nil => simp [insertPatch, SortedByStart]
  | cons q qs ih =>
    rcases List.pairwise_cons.mp h with ⟨hq, hqs⟩
    simp only [insertPatch]
    by_cases hlt : p.Start < q.Start
    · simp only [hlt, if_true]
      refine List.pairwise_cons.mpr ⟨?_, h⟩
      intro b hb
      rw [List.mem_cons] at hb
      rcases hb with rfl | hb
      · exact le_of_lt hlt
      · exact le_trans (le_of_lt hlt) (hq b hb)
    · simp only [hlt, if_false]
      refine List.pairwise_cons.mpr ⟨?_, ih hqs⟩
      intro b hb
      have hb' := (insertPatch_perm p qs).mem_iff.mp hb
      rw [List.mem_cons] at hb'
      rcases hb' with rfl | hb'
      · exact le_of_not_lt hlt
      · exact hq b hb'

theorem sortPatches_sorted (ps : List Patch) : SortedByStart (sortPatches ps) := by
  induction ps with
  | nil => simp [sortPatches, SortedByStart]
  | cons p rest ih =>
    simpa [sortPatches] using insertPatch_sorted (p := p) ih

/-- A patch passing the bounds part of validation. -/
def boundsOk (olen : Int) (p : Patch) : Prop :=
  0 ≤ p.Start ∧ p.Start ≤ p.End ∧ p.End ≤ olen

theorem validate_head_bounds {olen : Int} {p : Patch} {rest : List Patch}
    (h : patchesValidate olen (p :: rest) = true) : boundsOk olen p := by
  simp only [patchesValidate] at h
  by_cases hb : p.Start < 0 ∨ p.End > olen ∨ p.Start > p.End
  · rw [if_pos hb] at h; cases h
  · push_neg at hb
    exact ⟨hb.1, hb.2.2, hb.2.1⟩

theorem validate_cons_cons {olen : Int} {p q : Patch} {t : List Patch}
    (h : patchesValidate olen (p :: q :: t) = true) :
    p.End ≤ q.Start ∧ patchesValidate olen (q :: t) = true := by
  have hbp := validate_head_bounds h
  have hbne : ¬ (p.Start < 0 ∨ p.End > olen ∨ p.Start > p.End) := by
    push_neg
    exact ⟨hbp.1, hbp.2.2, hbp.2.1⟩
  simp only [patchesValidate, hbne, if_false] at h
  by_cases ho : q.Start < p.End
  · rw [if_pos ho] at h; cases h
  · rw [if_neg ho] at h
    exact ⟨le_of_not_lt ho, h⟩

theorem validate_tail {olen : Int} {p : Patch} {rest : List Patch}
    (h : patchesValidate olen (p :: rest) = true) : patchesValidate olen rest = true := by
  cases rest with
  | nil => rfl
  | cons q t => exact (validate_cons_cons h).2

theorem validate_bounds {olen : Int} {l : List Patch} (h : patchesValidate olen l = true) :
    ∀ p ∈ l, boundsOk olen p := by
  induction l with
  | nil => intro p hp; cases hp
  | cons p rest ih =>
    intro r hr
    rw [List.mem_cons] at hr
    rcases hr with rfl | hr
    · exact validate_head_bounds h
    · exact ih (validate_tail h) r hr

theorem validate_head_le {olen : Int} {p : Patch} {rest : List Patch}
    (h : patchesValidate olen (p :: rest) = true) :
    ∀ r ∈ rest, p.End ≤ r.Start := by
  induction rest generalizing p with
  | nil => intro r hr; cases hr
  | cons q t ih =>
    intro r hr
    rcases validate_cons_cons h with ⟨hpq, htail⟩
    rw [List.mem_cons] at hr
    rcases hr with rfl | hr
    · exact hpq
    · have hq := validate_head_bounds htail
      exact le_trans hpq (le_trans hq.2.1 (ih htail r hr))

theorem validate_pairwise {olen : Int} {l : List Patch}
    (h : patchesValidate olen l = true) :
    l.Pairwise (fun p q => p.End ≤ q.Start) := by
  induction l with
  | nil => exact List.Pairwise.nil
  | cons p rest ih =>
    exact List.pairwise_cons.mpr ⟨validate_head_le h, ih (validate_tail h)⟩

/-- A validated list has no overlapping pair (in either orientation). -/
theorem validate_no_overlap {olen : Int} {l : List Patch}
    (h : patchesValidate olen l = true) :
    l.Pairwise (fun p q => ¬ overlap p q ∧ ¬ overlap q p) := by
  have hpw := validate_pairwise h
  refine hpw.imp ?_
  intro a b hab
  constructor
  · intro hov; exact absurd hov.2 (not_lt.mpr hab)
  · intro hov; exact absurd hov.1 (not_lt.mpr hab)

/-- Conversely, bounds-valid, nonempty, pairwise non-overlapping patches pass
validation once sorted by Start. -/
theorem validate_of_sorted_nonoverlap {olen : Int} {l : List Patch}
    (hb : ∀ p ∈ l, 0 ≤ p.Start ∧ p.Start < p.End ∧ p.End ≤ olen)
    (hs : SortedByStart l)
    (hno : l.Pairwise (fun p q => ¬ overlap p q)) :
    patchesValidate olen l = true := by
  induction l with
  | nil => rfl
  | cons p rest ih =>
    have hbp := hb p (by simp)
    have hbne : ¬ (p.Start < 0 ∨ p.End > olen ∨ p.Start > p.End) := by
      push_neg
      exact ⟨hbp.1, hbp.2.2, le_of_lt hbp.2.1⟩
    rcases List.pairwise_cons.mp hs with ⟨hsp, hs'⟩
    rcases List.pairwise_cons.mp hno with ⟨hnop, hno'⟩
    have htail : patchesValidate olen rest = true :=
      ih (fun r hr => hb r (List.mem_cons_of_mem _ hr)) hs' hno'
    simp only [patchesValidate, hbne, if_false]
    cases rest with
    | nil => rfl
    | cons q t =>
      have hq := hb q (by simp)
      have hno_pq := hnop q (by simp)
      have hle : ¬ q.Start < p.End := by
        intro hlt
        exact hno_pq ⟨lt_of_le_of_lt (hsp q (by simp)) hq.2.1, hlt⟩
      simp [hle, htail]


theorem pairwise_of_validate_perm {olen : Int} {patches : List Patch}
    (hv : patchesValidate olen (sortPatches patches) = true) :
    patches.Pairwise (fun p q => ¬ overlap p q ∧ ¬ overlap q p) := by
  have hno := validate_no_overlap hv
  exact ((sortPatches_perm patches).pairwise_iff
    (fun h => ⟨h.2, h.1⟩)).mp hno

/-- C3: ApplyPatches rejects bad bounds and overlaps, and accepts bounded
pairwise-disjoint nonempty spans (adjacency included). -/
theorem claim_C3 (original : List Char) (patches : List Patch) :
    ((∃ p ∈ patches, p.Start < 0 ∨ (original.length : Int) < p.End ∨ p.End < p.Start) →
      ApplyPatches original patches = none)
  ∧ ((∃ i j : Nat, ∃ hi : i < patches.length, ∃ hj : j < patches.length,
        i ≠ j ∧ overlap (patches.get ⟨i, hi⟩) (patches.get ⟨j, hj⟩)) →
      ApplyPatches original patches = none)
  ∧ ((∀ p ∈ patches, 0 ≤ p.Start ∧ p.Start < p.End ∧ p.End ≤ (original.length : Int)) →
     (∀ (i j : Nat) (hi : i < patches.length) (hj : j < patches.length), i ≠ j →
        ¬ overlap (patches.get ⟨i, hi⟩) (patches.get ⟨j, hj⟩)) →
      (ApplyPatches original patches).isSome = true) := by
  refine ⟨?_, ?_, ?_⟩
  · rintro ⟨p, hp, hbad⟩
    by_cases hv : patchesValidate (original.length : Int) (sortPatches patches) = true
    · exfalso
      have hmem : p ∈ sortPatches patches := (sortPatches_perm patches).mem_iff.mpr hp
      have hb := validate_bounds hv p hmem
      rcases hbad with h1 | h1 | h1
      · exact absurd hb.1 (not_le.mpr h1)
      · exact absurd hb.2.2 (not_le.mpr h1)
      · exact absurd hb.2.1 (not_le.mpr h1)
    · simp [ApplyPatches, hv]
  · rintro ⟨i, j, hi, hj, hij, hov⟩
    by_cases hv : patchesValidate (original.length : Int) (sortPatches patches) = true
    · exfalso
      have hpw := pairwise_of_validate_perm hv
      have hget := List.pairwise_iff_get.mp hpw
      rcases Nat.lt_or_ge i j with hlt | hge
      · exact (hget ⟨i, hi⟩ ⟨j, hj⟩ hlt).1 hov
      · have hlt : j < i := lt_of_le_of_ne hge (Ne.symm hij)
        exact (hget ⟨j, hj⟩ ⟨i, hi⟩ hlt).2 hov
    · simp [ApplyPatches, hv]
  · intro hb hno
    have hpw : patches.Pairwise (fun p q => ¬ overlap p q) := by
      rw [List.pairwise_iff_get]
      intro a b hab
      exact hno a.1 b.1 a.2 b.2 (Nat.ne_of_lt hab)
    have hpws : (sortPatches patches).Pairwise (fun p q => ¬ overlap p q) := by
      refine ((sortPatches_perm patches).pairwise_iff ?_).mpr hpw
      intro x y hxy hov
      exact hxy (overlap_symm hov)
    have hbs : ∀ p ∈ sortPatches patches,
        0 ≤ p.Start ∧ p.Start < p.End ∧ p.End ≤ (original.length : Int) :=
      fun p hp => hb p ((sortPatches_perm patches).mem_iff.mp hp)
    have hv := validate_of_sorted_nonoverlap hbs (sortPatches_sorted patches) hpws
    simp [ApplyPatches, hv]

/-- Witness for C3 at a concrete overlapping pair. -/
theorem claim_C3_witness :
    ((⟨0, 4, ['X']⟩ : Patch) ≠ ⟨2, 5, ['Y']⟩ ∧ overlap ⟨0, 4, ['X']⟩ ⟨2, 5, ['Y']⟩) ∧
    ApplyPatches "abcdef".toList [⟨0, 4, ['X']⟩, ⟨2, 5, ['Y']⟩] = none :=
  ⟨⟨by decide, by decide⟩,
    (claim_C3 "abcdef".toList [⟨0, 4, ['X']⟩, ⟨2, 5, ['Y']⟩]).2.1
      ⟨0, 1, by norm_num, by norm_num, by decide, by decide⟩⟩

theorem applyLoop_length (original : List Char) :
    ∀ (l : List Patch) (lastIndex : Nat),
    patchesValidate (original.length : Int) l = true →
    (match l with
     | [] => lastIndex ≤ original.length
     | p :: _ => (lastIndex : Int) ≤ p.Start) →
    ((applyLoop original l lastIndex).length : Int)
      = (original.length : Int) - lastIndex
        - ((l.map fun p => p.End - p.Start).sum)
        + ((l.map fun p => (p.NewText.length : Int)).sum) := by
  intro l
  induction l with
  | nil =>
    intro lastIndex _ hchain
    simp only [applyLoop, List.length_drop, List.map_nil, List.sum_nil]
    omega
  | cons p rest ih =>
    intro lastIndex hv hchain
    obtain ⟨hb1, hb2, hb3⟩ := validate_head_bounds hv
    simp only at hchain
    have hfirst : ((original.take p.Start.toNat).drop lastIndex).length
        = p.Start.toNat - lastIndex := by
      simp only [List.length_drop, List.length_take]
      omega
    have hrec := ih p.End.toNat (validate_tail hv) (by
      cases rest with
      | nil => simp only; omega
      | cons q t =>
        have hpq := (validate_cons_cons hv).1
        simp only
        omega)
    simp only [applyLoop, List.length_append, hfirst, List.map_cons, List.sum_cons]
    push_cast
    push_cast at hrec
    omega

/-- C4: the length law for a successful apply. -/
theorem claim_C4 (original out : List Char) (patches : List Patch)
    (h : ApplyPatches original patches = some out) :
    (out.length : Int) = (original.length : Int)
      - ((patches.map fun p => p.End - p.Start).sum)
      + ((patches.map fun p => (p.NewText.length : Int)).sum) := by
  by_cases hv : patchesValidate (original.length : Int) (sortPatches patches) = true
  · have hout : out = applyLoop original (sortPatches patches) 0 := by
      simp only [ApplyPatches, hv, if_true] at h
      exact (Option.some_injective _ h).symm
    have hchain : (match sortPatches patches with
        | [] => 0 ≤ original.length
        | p :: _ => ((0 : Nat) : Int) ≤ p.Start) := by
      cases hs : sortPatches patches with
      | nil => simp
      | cons p t =>
        have hb : boundsOk (original.length : Int) p := by
          refine validate_bounds hv p ?_
          rw [hs]; simp
        simpa using hb.1
    have hlen := applyLoop_length original (sortPatches patches) 0 hv hchain
    have hsum1 : ((sortPatches patches).map fun p => p.End - p.Start).sum
        = (patches.map fun p => p.End - p.Start).sum :=
      ((sortPatches_perm patches).map _).sum_eq
    have hsum2 : ((sortPatches patches).map fun p => (p.NewText.length : Int)).sum
        = (patches.map fun p => (p.NewText.length : Int)).sum :=
      ((sortPatches_perm patches).map _).sum_eq
    rw [hout, hlen, hsum1, hsum2]
    push_cast
    ring
  · simp [ApplyPatches, hv] at h

/-- Witness for C4 at a concrete successful apply. -/
theorem claim_C4_witness :
    ApplyPatches "abcdef".toList [⟨2, 4, "XYZ".toList⟩] = some "abXYZef".toList ∧
    (("abXYZef".toList.length : Int) = ("abcdef".toList.length : Int)
      - (([⟨2, 4, "XYZ".toList⟩] : List Patch).map fun p => p.End - p.Start).sum
      + (([⟨2, 4, "XYZ".toList⟩] : List Patch).map fun p => (p.NewText.length : Int)).sum) :=
  ⟨by decide, claim_C4 "abcdef".toList "abXYZef".toList [⟨2, 4, "XYZ".toList⟩] (by decide)⟩

/-- insideSpan j p: index j lies inside the half-open range of patch p. -/
def insideSpan (j : Nat) (p : Patch) : Prop := p.Start ≤ (j : Int) ∧ (j : Int) < p.End

instance (j : Nat) (p : Patch) : Decidable (insideSpan j p) := by
  unfold insideSpan; infer_instance

/-- outPos computes, for an index j of the original buffer that lies outside
every span of the (sorted) patch list, the position where original[j] lands in
the rebuilt output: j shifted by the replacements applied before it. -/
def outPos : List Patch → Nat → Nat → Nat
  | [], lastIndex, j => j - lastIndex
  | p :: rest, lastIndex, j =>
      if (j : Int) < p.Start then j - lastIndex
      else (p.Start.toNat - lastIndex) + p.NewText.length + outPos rest p.End.toNat j

theorem applyLoop_frame (original : List Char) :
    ∀ (l : List Patch) (lastIndex j : Nat),
    patchesValidate (original.length : Int) l = true →
    (match l with | [] => True | p :: _ => (lastIndex : Int) ≤ p.Start) →
    lastIndex ≤ j → j < original.length →
    (∀ p ∈ l, ¬ insideSpan j p) →
    (applyLoop original l lastIndex)[outPos l lastIndex j]? = original[j]? := by
  intro l
  induction l with
  | nil =>
    intro lastIndex j _ _ hlj _ _
    simp only [applyLoop, outPos]
    rw [List.getElem?_drop]
    congr 1
    omega
  | cons p rest ih =>
    intro lastIndex j hv hchain hlj hjlen hout
    obtain ⟨hb1, hb2, hb3⟩ := validate_head_bounds hv
    simp only at hchain
    have hnotin : ¬ insideSpan j p := hout p (by simp)
    simp only [insideSpan, not_and, not_lt] at hnotin
    have hfl : ((original.take p.Start.toNat).drop lastIndex).length
        = p.Start.toNat - lastIndex := by
      simp only [List.length_drop, List.length_take]
      omega
    by_cases hcase : (j : Int) < p.Start
    · simp only [outPos, hcase, if_true, applyLoop]
      rw [List.append_assoc, List.getElem?_append, if_pos (by rw [hfl]; omega)]
      rw [List.getElem?_drop, List.getElem?_take, if_pos (by omega)]
      congr 1
      omega
    · have hEj : p.End ≤ (j : Int) := hnotin (le_of_not_lt hcase)
      simp only [outPos, hcase, if_false, applyLoop]
      have hlen12 : ((original.take p.Start.toNat).drop lastIndex ++ p.NewText).length
          = (p.Start.toNat - lastIndex) + p.NewText.length := by
        simp [hfl]
      rw [List.getElem?_append_right (by rw [hlen12]; omega)]
      rw [hlen12]
      have hidx : (p.Start.toNat - lastIndex) + p.NewText.length + outPos rest p.End.toNat j
          - ((p.Start.toNat - lastIndex) + p.NewText.length) = outPos rest p.End.toNat j := by
        omega
      rw [hidx]
      refine ih p.End.toNat j (validate_tail hv) ?_ (by omega) hjlen
        (fun q hq => hout q (List.mem_cons_of_mem _ hq))
      cases rest with
      | nil => simp
      | cons q t =>
        have hpq := (validate_cons_cons hv).1
        simp only
        omega

theorem outPos_mono {olen : Int} :
    ∀ (l : List Patch) (lastIndex j1 j2 : Nat),
    patchesValidate olen l = true →
    (match l with | [] => True | p :: _ => (lastIndex : Int) ≤ p.Start) →
    lastIndex ≤ j1 → j1 ≤ j2 →
    (∀ p ∈ l, ¬ insideSpan j1 p) → (∀ p ∈ l, ¬ insideSpan j2 p) →
    outPos l lastIndex j1 ≤ outPos l lastIndex j2 := by
  intro l
  induction l with
  | nil =>
    intro lastIndex j1 j2 _ _ _ h12 _ _
    simp only [outPos]
    omega
  | cons p rest ih =>
    intro lastIndex j1 j2 hv hchain hl1 h12 hout1 hout2
    obtain ⟨hb1, hb2, hb3⟩ := validate_head_bounds hv
    simp only at hchain
    have hni1 : ¬ insideSpan j1 p := hout1 p (by simp)
    have hni2 : ¬ insideSpan j2 p := hout2 p (by simp)
    simp only [insideSpan, not_and, not_lt] at hni1 hni2
    by_cases hc1 : (j1 : Int) < p.Start
    · by_cases hc2 : (j2 : Int) < p.Start
      · simp only [outPos, hc1, hc2, if_true]
        omega
      · simp only [outPos, hc1, hc2, if_true, if_false]
        omega
    · have hE1 : p.End ≤ (j1 : Int) := hni1 (le_of_not_lt hc1)
      have hc2 : ¬ (j2 : Int) < p.Start := by omega
      simp only [outPos, hc1, hc2, if_false]
      have hrec := ih p.End.toNat j1 j2 (validate_tail hv) (by
          cases rest with
          | nil => simp
          | cons q t =>
            have hpq := (validate_cons_cons hv).1
            simp only
            omega)
        (by omega) h12
        (fun q hq => hout1 q (List.mem_cons_of_mem _ hq))
        (fun q hq => hout2 q (List.mem_cons_of_mem _ hq))
      omega

/-- C8: frame property of a successful apply. Every element of the original
outside all spans reappears verbatim in the output, at the position computed
by outPos over the sorted spans, and these positions preserve the original
order. -/
theorem claim_C8 (original out : List Char) (patches : List Patch)
    (h : ApplyPatches original patches = some out) :
    (∀ j : Nat, j < original.length → (∀ p ∈ patches, ¬ insideSpan j p) →
      out[outPos (sortPatches patches) 0 j]? = original[j]?)
  ∧ (∀ j1 j2 : Nat, j1 ≤ j2 →
      (∀ p ∈ patches, ¬ insideSpan j1 p) → (∀ p ∈ patches, ¬ insideSpan j2 p) →
      outPos (sortPatches patches) 0 j1 ≤ outPos (sortPatches patches) 0 j2) := by
  by_cases hv : patchesValidate (original.length : Int) (sortPatches patches) = true
  · have hout : out = applyLoop original (sortPatches patches) 0 := by
      simp only [ApplyPatches, hv, if_true] at h
      exact (Option.some_injective _ h).symm
    have hchain : (match sortPatches patches with
        | [] => True
        | p :: _ => ((0 : Nat) : Int) ≤ p.Start) := by
      cases hs : sortPatches patches with
      | nil => trivial
      | cons p t =>
        have hb : boundsOk (original.length : Int) p := by
          refine validate_bounds hv p ?_
          rw [hs]; simp
        simpa using hb.1
    constructor
    · intro j hjlen hout'
      rw [hout]
      exact applyLoop_frame original (sortPatches patches) 0 j hv hchain (Nat.zero_le j)
        hjlen (fun p hp => hout' p ((sortPatches_perm patches).mem_iff.mp hp))
    · intro j1 j2 h12 h1 h2
      exact outPos_mono (sortPatches patches) 0 j1 j2 hv hchain (Nat.zero_le j1) h12
        (fun p hp => h1 p ((sortPatches_perm patches).mem_iff.mp hp))
        (fun p hp => h2 p ((sortPatches_perm patches).mem_iff.mp hp))
  · simp [ApplyPatches, hv] at h

/-- Witness for C8 at a concrete successful apply and untouched index. -/
theorem claim_C8_witness :
    ApplyPatches "abcdef".toList [⟨2, 4, "XYZ".toList⟩] = some "abXYZef".toList ∧
    (5 : Nat) < "abcdef".toList.length ∧
    (∀ p ∈ ([⟨2, 4, "XYZ".toList⟩] : List Patch), ¬ insideSpan 5 p) ∧
    "abXYZef".toList[outPos (sortPatches [⟨2, 4, "XYZ".toList⟩]) 0 5]?
      = "abcdef".toList[5]? :=
  ⟨by decide, by decide, by decide,
    (claim_C8 "abcdef".toList "abXYZef".toList [⟨2, 4, "XYZ".toList⟩] (by decide)).1
      5 (by decide) (by decide)⟩

/-- isWordChar models the regexp class \w of Go RE2: ASCII letters, digits
and underscore. -/
def isWordChar (c : Char) : Bool :=
  (decide ('a' ≤ c) && decide (c ≤ 'z')) || (decide ('A' ≤ c) && decide (c ≤ 'Z'))
    || (decide ('0' ≤ c) && decide (c ≤ '9')) || decide (c = '_')

/-- escapeChar: the replacement table of Go html.EscapeString. -/
def escapeChar (c : Char) : List Char :=
  if c = '&' then "&amp;".toList
  else if c = '\'' then "&#39;".toList
  else if c = '<' then "&lt;".toList
  else if c = '>' then "&gt;".toList
  else if c = '"' then "&#34;".toList
  else [c]

/-- EscapeString models Go html.EscapeString (simultaneous single-pass
replacement of the five special characters). -/
def EscapeString (s : List Char) : List Char := s.flatMap escapeChar

/-- rubyFor builds the replacement text of both modes:
fmt.Sprintf of the ruby tag over the escaped word and escaped yomi. -/
def rubyFor (w y : List Char) : List Char :=
  "<ruby>".toList ++ EscapeString w ++ "<rt>".toList ++ EscapeString y
    ++ "</rt></ruby>".toList

/-- sliceN models the Go slice expression l[a:b]. -/
def sliceN (l : List Char) (a b : Nat) : List Char := (l.take b).drop a

/-- wordCharAt: the character at index i exists and is a word character. -/
def wordCharAt (s : List Char) (i : Nat) : Bool :=
  match s[i]? with
  | some c => isWordChar c
  | none => false

/-- leadWord: length of the longest word-character run at the head. -/
def leadWord : List Char → Nat
  | [] => 0
  | c :: cs => if isWordChar c then leadWord cs + 1 else 0

/-- wordRunEnd: end of the maximal word-character run starting at i
(the extent matched by a greedy regex run of word characters from i). -/
def wordRunEnd (s : List Char) (i : Nat) : Nat := i + leadWord (s.drop i)

/-- markerChars is the literal marker text of rubiRegex. -/
def markerChars : List Char := [':', 'r', 'u', 'b', 'i']

/-- markerCheck s e: the marker appears at position e and the trailing
regex word boundary after it holds (next char non-word or end of text;
the char before it is a word char by construction of the pattern). -/
def markerCheck (s : List Char) (e : Nat) : Bool :=
  markerChars.isPrefixOf (s.drop e) && !wordCharAt s (e + 5)

/-- findRubiF models rubiRegex.FindAllStringSubmatchIndex: a left-to-right
scan emitting leftmost non-overlapping matches of the pattern of a word run
followed by the marker and a trailing word boundary; each triple is
(match start, word end, match end). Fuel makes the recursion structural;
the scan advances at least one position per step, so fuel len+1 from 0 is
always enough. -/
def findRubiF (s : List Char) : Nat → Nat → List (Nat × Nat × Nat)
  | 0, _ => []
  | fuel+1, i =>
    if i < s.length then
      if wordCharAt s i then
        if markerCheck s (wordRunEnd s i) then
          (i, wordRunEnd s i, wordRunEnd s i + 5) :: findRubiF s fuel (wordRunEnd s i + 5)
        else findRubiF s fuel (i+1)
      else findRubiF s fuel (i+1)
    else []

/-- findRubi: all matches of rubiRegex in s. -/
def findRubi (s : List Char) : List (Nat × Nat × Nat) := findRubiF s (s.length + 1) 0

/-- boundaryAt models the regexp word-boundary assertion of RE2 between
positions i-1 and i: exactly one side is a word character. -/
def boundaryAt (s : List Char) (i : Nat) : Bool :=
  (decide (0 < i) && wordCharAt s (i - 1)) != wordCharAt s i

/-- scanTermF models FindAllStringSubmatchIndex of the scan-mode pattern
(word boundary, quoted literal term, word boundary): a left-to-right scan
emitting leftmost non-overlapping occurrences; after an occurrence the scan
resumes at its end (one position further for an empty term, as Go does for
empty matches). -/
def scanTermF (s t : List Char) : Nat → Nat → List (Nat × Nat)
  | 0, _ => []
  | fuel+1, i =>
    if i ≤ s.length then
      if t.isPrefixOf (s.drop i) && boundaryAt s i && boundaryAt s (i + t.length) then
        (i, i + t.length) :: scanTermF s t fuel (i + max t.length 1)
      else scanTermF s t fuel (i+1)
    else []

/-- scanTermMatches: all whole-word occurrences of term t in s found by the
scan-mode regex. -/
def scanTermMatches (s t : List Char) : List (Nat × Nat) := scanTermF s t (s.length + 2) 0

/-- NodeKind: the goldmark node kinds the walker branches on; all kinds not
handled specially fall under other. -/
inductive NodeKind where
  | codeBlock
  | fencedCodeBlock
  | htmlBlock
  | rawHTML
  | codeSpan
  | link
  | other
deriving DecidableEq, Repr

/-- excludedKind: the kinds the walker skips entirely
(ast.WalkSkipChildren). -/
def excludedKind : NodeKind → Bool
  | .codeBlock => true
  | .fencedCodeBlock => true
  | .htmlBlock => true
  | .rawHTML => true
  | .codeSpan => true
  | _ => false

/-- MdNode: the parsed AST handed to the walker by the goldmark parser
(external collaborator). A text leaf carries its source segment
(segment.Start, segment.Stop); every other node carries its kind and
children. -/
inductive MdNode where
  | text (start stop : Nat)
  | node (kind : NodeKind) (children : List MdNode)
deriving Repr

/-- WalkSt: the mutable state of the walk closure: the accumulated patch
slice, the processedTerms set (as an insertion list) and the stderr
diagnostics (modelled as the words they name). -/
structure WalkSt where
  patches : List Patch
  processed : List (List Char)
  warnings : List (List Char)
deriving DecidableEq, Repr

/-- addTerm models the set insertion processedTerms[word] = true. -/
def addTerm (l : List (List Char)) (w : List Char) : List (List Char) :=
  if w ∈ l then l else l ++ [w]

/-- manualStep processes one rubiRegex match (ms, we, me) of a text node in
manual mode: a known word yields a ruby patch over word+marker; an unknown
word yields an empty patch over the marker alone plus a warning naming it. -/
def manualStep (content : List Char) (tm : List (List Char × Term)) (segStart : Nat)
    (st : WalkSt) (m : Nat × Nat × Nat) : WalkSt :=
  match tm.lookup (sliceN content (segStart + m.1) (segStart + m.2.1)) with
  | some t =>
      { st with patches := st.patches ++
          [⟨((segStart + m.1 : Nat) : Int), ((segStart + m.2.2 : Nat) : Int),
            rubyFor (sliceN content (segStart + m.1) (segStart + m.2.1)) t.yomi⟩] }
  | none =>
      { st with
          patches := st.patches ++
            [⟨((segStart + m.2.1 : Nat) : Int), ((segStart + m.2.2 : Nat) : Int), []⟩],
          warnings := st.warnings ++ [sliceN content (segStart + m.1) (segStart + m.2.1)] }

/-- processManual: manual mode handling of one text node. -/
def processManual (content : List Char) (tm : List (List Char × Term)) (segStart : Nat)
    (textStr : List Char) (st : WalkSt) : WalkSt :=
  (findRubi textStr).foldl (manualStep content tm segStart) st

/-- scanStep processes one scan-mode occurrence (a, b) of a term in a text
node: skip if firstOnly and the matched word was already processed, else
emit the ruby patch and record the word. -/
def scanStep (firstOnly : Bool) (textStr : List Char) (t : Term) (segStart : Nat)
    (st : WalkSt) (m : Nat × Nat) : WalkSt :=
  if firstOnly && decide (sliceN textStr m.1 m.2 ∈ st.processed) then st
  else
    { st with
        patches := st.patches ++
          [⟨((segStart + m.1 : Nat) : Int), ((segStart + m.2 : Nat) : Int),
            rubyFor (sliceN textStr m.1 m.2) t.yomi⟩],
        processed := addTerm st.processed (sliceN textStr m.1 m.2) }

/-- scanEntry: scan-mode handling of one dictionary entry on one text node. -/
def scanEntry (firstOnly : Bool) (segStart : Nat) (textStr : List Char)
    (st : WalkSt) (kv : List Char × Term) : WalkSt :=
  (scanTermMatches textStr kv.1).foldl (scanStep firstOnly textStr kv.2 segStart) st

/-- processScan: scan mode handling of one text node: iterate the dictionary
entries (association-list order models the Go map iteration order). -/
def processScan (firstOnly : Bool) (tm : List (List Char × Term)) (segStart : Nat)
    (textStr : List Char) (st : WalkSt) : WalkSt :=
  tm.foldl (scanEntry firstOnly segStart textStr) st

mutual

/-- walkNode embeds the walker closure of ProcessMarkdown: excluded kinds
return WalkSkipChildren; a text node is processed per the active mode; all
other nodes continue into their children. -/
def walkNode (content : List Char) (scan firstOnly : Bool) (tm : List (List Char × Term)) :
    MdNode → WalkSt → WalkSt
  | .text s e, st =>
      if scan then processScan firstOnly tm s (sliceN content s e) st
      else processManual content tm s (sliceN content s e) st
  | .node k cs, st =>
      if excludedKind k then st else walkNodes content scan firstOnly tm cs st

/-- walkNodes: pre-order traversal of a child list, threading the state. -/
def walkNodes (content : List Char) (scan firstOnly : Bool) (tm : List (List Char × Term)) :
    List MdNode → WalkSt → WalkSt
  | [], st => st
  | n :: ns, st =>
      walkNodes content scan firstOnly tm ns (walkNode content scan firstOnly tm n st)

end

/-- ProcessMarkdown embeds the Go function of the same name, with the
goldmark parse step factored out: doc is the AST the parser produced for
content. Returns the rewritten buffer (none models an error) and the
accumulated diagnostics. -/
def ProcessMarkdown (content : List Char) (dryRun scan firstOnly : Bool)
    (tm : List (List Char × Term)) (doc : MdNode) : Option (List Char) × List (List Char) :=
  let st := walkNode content scan firstOnly tm doc ⟨[], [], []⟩
  if dryRun || st.patches.isEmpty then (some content, st.warnings)
  else (ApplyPatches content st.patches, st.warnings)

theorem wordCharAt_oob {s : List Char} {i : Nat} (h : s.length ≤ i) :
    wordCharAt s i = false := by
  simp [wordCharAt, List.getElem?_eq_none h]

theorem wordCharAt_lt {s : List Char} {i : Nat} (h : wordCharAt s i = true) :
    i < s.length := by
  by_contra hge
  rw [wordCharAt_oob (le_of_not_lt hge)] at h
  cases h

theorem wordCharAt_of_getElem {s : List Char} {i : Nat} {c : Char}
    (h : s[i]? = some c) : wordCharAt s i = isWordChar c := by
  simp [wordCharAt, h]

theorem wordCharAt_drop (s : List Char) (i k : Nat) :
    wordCharAt (s.drop i) k = wordCharAt s (i + k) := by
  simp [wordCharAt, List.getElem?_drop]

theorem leadWord_le (l : List Char) : leadWord l ≤ l.length := by
  induction l with
  | nil => simp [leadWord]
  | cons c cs ih =>
    simp only [leadWord, List.length_cons]
    by_cases h : isWordChar c
    · simp [h]; omega
    · simp [h]

theorem leadWord_word {l : List Char} : ∀ {k : Nat}, k < leadWord l → wordCharAt l k = true := by
  induction l with
  | nil => intro k h; simp [leadWord] at h
  | cons c cs ih =>
    intro k h
    simp only [leadWord] at h
    by_cases hc : isWordChar c
    · rw [if_pos hc] at h
      match k with
      | 0 => simpa [wordCharAt] using hc
      | k+1 =>
        have : k < leadWord cs := by omega
        simpa [wordCharAt, List.getElem?_cons_succ] using ih this
    · rw [if_neg hc] at h
      omega

theorem leadWord_stop (l : List Char) : wordCharAt l (leadWord l) = false := by
  induction l with
  | nil => simp [leadWord, wordCharAt]
  | cons c cs ih =>
    simp only [leadWord]
    by_cases hc : isWordChar c
    · rw [if_pos hc]
      simpa [wordCharAt, List.getElem?_cons_succ] using ih
    · rw [if_neg hc]
      simpa [wordCharAt] using hc

theorem leadWord_eq {l : List Char} {n : Nat}
    (hw : ∀ k, k < n → wordCharAt l k = true) (hs : wordCharAt l n = false) :
    leadWord l = n := by
  rcases Nat.lt_trichotomy (leadWord l) n with h | h | h
  · have := hw _ h
    rw [leadWord_stop] at this
    cases this
  · exact h
  · have := leadWord_word h
    rw [hs] at this
    cases this

theorem wordRunEnd_ge (s : List Char) (i : Nat) : i ≤ wordRunEnd s i :=
  Nat.le_add_right ..

theorem wordRunEnd_word {s : List Char} {i k : Nat} (h1 : i ≤ k)
    (h2 : k < wordRunEnd s i) : wordCharAt s k = true := by
  have h3 : k - i < leadWord (s.drop i) := by
    simp only [wordRunEnd] at h2
    omega
  have := leadWord_word h3
  rw [wordCharAt_drop] at this
  rwa [Nat.add_sub_cancel' h1] at this

theorem wordRunEnd_stop (s : List Char) (i : Nat) :
    wordCharAt s (wordRunEnd s i) = false := by
  have := leadWord_stop (s.drop i)
  rwa [wordCharAt_drop] at this

theorem wordRunEnd_le {s : List Char} {i : Nat} (h : i ≤ s.length) :
    wordRunEnd s i ≤ s.length := by
  have := leadWord_le (s.drop i)
  simp only [List.length_drop] at this
  simp only [wordRunEnd]
  omega

theorem wordRunEnd_gt {s : List Char} {i : Nat} (h : wordCharAt s i = true) :
    i < wordRunEnd s i := by
  have h0 : wordCharAt (s.drop i) 0 = true := by
    rw [wordCharAt_drop]; simpa using h
  have : 0 < leadWord (s.drop i) := by
    by_contra hz
    have hz' : leadWord (s.drop i) = 0 := by omega
    have := leadWord_stop (s.drop i)
    rw [hz'] at this
    rw [this] at h0
    cases h0
  simp only [wordRunEnd]
  omega

theorem wordRunEnd_eq {s : List Char} {i re : Nat} (h3 : i ≤ re)
    (hw : ∀ k, i ≤ k → k < re → wordCharAt s k = true)
    (hs : wordCharAt s re = false) : wordRunEnd s i = re := by
  have : leadWord (s.drop i) = re - i := by
    refine leadWord_eq (fun k hk => ?_) ?_
    · rw [wordCharAt_drop]
      exact hw _ (Nat.le_add_right ..) (by omega)
    · rw [wordCharAt_drop]
      rw [Nat.add_sub_cancel' h3]
      exact hs
  simp only [wordRunEnd, this]
  omega

theorem prefixAt_getElem {s t : List Char} {i : Nat}
    (h : t.isPrefixOf (s.drop i) = true) {k : Nat} (hk : k < t.length) :
    s[i + k]? = t[k]? := by
  obtain ⟨r, hr⟩ := List.isPrefixOf_iff_prefix.mp h
  rw [← List.getElem?_drop, ← hr, List.getElem?_append, if_pos hk]

theorem prefixAt_length {s t : List Char} {i : Nat}
    (h : t.isPrefixOf (s.drop i) = true) : t.length ≤ s.length - i := by
  have := (List.isPrefixOf_iff_prefix.mp h).length_le
  simpa using this

theorem prefixAt_length_ne {s t : List Char} {i : Nat}
    (h : t.isPrefixOf (s.drop i) = true) (hne : t ≠ []) : i + t.length ≤ s.length := by
  have h1 := prefixAt_length h
  have h2 : 0 < t.length := List.length_pos.mpr hne
  omega

theorem sliceN_of_prefix {s t : List Char} {i : Nat}
    (h : t.isPrefixOf (s.drop i) = true) : sliceN s i (i + t.length) = t := by
  obtain ⟨r, hr⟩ := List.isPrefixOf_iff_prefix.mp h
  simp only [sliceN]
  rw [← List.take_drop, ← hr, List.take_left]

theorem markerCheck_spec {s : List Char} {e : Nat} (h : markerCheck s e = true) :
    markerChars.isPrefixOf (s.drop e) = true ∧ wordCharAt s (e + 5) = false := by
  simp only [markerCheck, Bool.and_eq_true, Bool.not_eq_eq_eq_not, Bool.not_true] at h
  exact ⟨h.1, h.2⟩

theorem markerCheck_le {s : List Char} {e : Nat} (h : markerCheck s e = true) :
    e + 5 ≤ s.length := by
  have := prefixAt_length_ne (markerCheck_spec h).1 (by decide)
  simpa [markerChars] using this

theorem markerCheck_colon {s : List Char} {e : Nat} (h : markerCheck s e = true) :
    wordCharAt s e = false := by
  have h0 : s[e + 0]? = markerChars[0]? := prefixAt_getElem (markerCheck_spec h).1 (by decide)
  simp only [Nat.add_zero] at h0
  rw [wordCharAt_of_getElem (by rw [h0]; rfl)]
  decide

theorem markerCheck_word {s : List Char} {e k : Nat} (h : markerCheck s e = true)
    (h1 : 1 ≤ k) (h4 : k ≤ 4) : wordCharAt s (e + k) = true := by
  have hk : k < markerChars.length := by simp [markerChars]; omega
  have h0 : s[e + k]? = markerChars[k]? := prefixAt_getElem (markerCheck_spec h).1 hk
  interval_cases k
  · rw [wordCharAt_of_getElem (by rw [h0]; rfl)]; decide
  · rw [wordCharAt_of_getElem (by rw [h0]; rfl)]; decide
  · rw [wordCharAt_of_getElem (by rw [h0]; rfl)]; decide
  · rw [wordCharAt_of_getElem (by rw [h0]; rfl)]; decide

theorem findRubiF_sound {s : List Char} :
    ∀ (fuel j i e m : Nat), (i, e, m) ∈ findRubiF s fuel j →
    j ≤ i ∧ i < s.length ∧ wordCharAt s i = true ∧ e = wordRunEnd s i ∧
      markerCheck s e = true ∧ m = e + 5 := by
  intro fuel
  induction fuel with
  | zero => intro j i e m h; simp [findRubiF] at h
  | succ f ih =>
    intro j i e m h
    simp only [findRubiF] at h
    by_cases hj : j < s.length
    · rw [if_pos hj] at h
      by_cases hw : wordCharAt s j = true
      · rw [if_pos hw] at h
        by_cases hm : markerCheck s (wordRunEnd s j) = true
        · rw [if_pos hm] at h
          rcases List.mem_cons.mp h with heq | htail
          · simp only [Prod.mk.injEq] at heq
            obtain ⟨rfl, rfl, rfl⟩ := heq
            exact ⟨le_refl _, hj, hw, rfl, hm, rfl⟩
          · have hrec := ih _ i e m htail
            have hje : j < wordRunEnd s j := wordRunEnd_gt hw
            exact ⟨by omega, hrec.2.1, hrec.2.2.1, hrec.2.2.2.1, hrec.2.2.2.2⟩
        · rw [if_neg hm] at h
          have hrec := ih _ i e m h
          exact ⟨by omega, hrec.2.1, hrec.2.2.1, hrec.2.2.2.1, hrec.2.2.2.2⟩
      · rw [if_neg hw] at h
        have hrec := ih _ i e m h
        exact ⟨by omega, hrec.2.1, hrec.2.2.1, hrec.2.2.2.1, hrec.2.2.2.2⟩
    · rw [if_neg hj] at h
      cases h

theorem findRubi_sound {s : List Char} {i e m : Nat} (h : (i, e, m) ∈ findRubi s) :
    i < s.length ∧ wordCharAt s i = true ∧ e = wordRunEnd s i ∧
      markerCheck s e = true ∧ m = e + 5 := by
  have := findRubiF_sound (s.length + 1) 0 i e m h
  exact ⟨this.2.1, this.2.2.1, this.2.2.2.1, this.2.2.2.2⟩

theorem findRubi_bounds {s : List Char} {i e m : Nat} (h : (i, e, m) ∈ findRubi s) :
    i < e ∧ e < m ∧ m ≤ s.length := by
  obtain ⟨hi, hw, he, hm, hme⟩ := findRubi_sound h
  have h1 : i < wordRunEnd s i := wordRunEnd_gt hw
  have h2 := markerCheck_le hm
  omega

theorem findRubiF_complete {s : List Char} :
    ∀ (fuel j i re : Nat),
    s.length ≤ j + fuel → j ≤ i →
    wordCharAt s i = true → (i = 0 ∨ wordCharAt s (i - 1) = false) →
    wordRunEnd s i = re → markerCheck s re = true →
    (i, re, re + 5) ∈ findRubiF s fuel j ∨
    ∃ i2 re2, (i2, re2, re2 + 5) ∈ findRubiF s fuel j ∧ i2 < i ∧ i < re2 + 5 ∧
      re ≤ re2 + 5 := by
  intro fuel
  induction fuel with
  | zero =>
    intro j i re hfuel hji hwi _ _ _
    have := wordCharAt_lt hwi
    omega
  | succ f ih =>
    intro j i re hfuel hji hwi hmax hrun hmk
    have hilen := wordCharAt_lt hwi
    have hjlen : j < s.length := by omega
    simp only [findRubiF, if_pos hjlen]
    by_cases hw : wordCharAt s j = true
    · rw [if_pos hw]
      by_cases hm : markerCheck s (wordRunEnd s j) = true
      · rw [if_pos hm]
        by_cases hji' : j = i
        · subst hji'
          rw [hrun]
          exact Or.inl (List.mem_cons_self ..)
        · have hjlt : j < i := by omega
          by_cases hcov : i < wordRunEnd s j + 5
          · -- the emitted match at j covers i; show the run at i ends by re2+5
            refine Or.inr ⟨j, wordRunEnd s j, List.mem_cons_self .., hjlt, hcov, ?_⟩
            have hi0 : i ≠ 0 := by omega
            have hprev : wordCharAt s (i - 1) = false := by
              rcases hmax with h | h
              · exact absurd h hi0
              · exact h
            have hieq : i = wordRunEnd s j + 1 := by
              by_contra hne
              -- i-1 lies in [j, wordRunEnd s j) or in the marker word part
              by_cases hlt : i - 1 < wordRunEnd s j
              · have := wordRunEnd_word (s := s) (i := j) (by omega) hlt
                rw [hprev] at this
                cases this
              · have hk1 : 1 ≤ i - 1 - wordRunEnd s j := by omega
                have hk4 : i - 1 - wordRunEnd s j ≤ 4 := by omega
                have := markerCheck_word hm hk1 hk4
                have heq : wordRunEnd s j + (i - 1 - wordRunEnd s j) = i - 1 := by omega
                rw [heq, hprev] at this
                cases this
            -- the word run at i is exactly the chars r u b i of the marker
            have hre : re = wordRunEnd s j + 5 := by
              rw [← hrun, hieq]
              refine wordRunEnd_eq (by omega) (fun k hk1 hk2 => ?_) ?_
              · have hk1' : 1 ≤ k - wordRunEnd s j := by omega
                have hk4' : k - wordRunEnd s j ≤ 4 := by omega
                have := markerCheck_word hm hk1' hk4'
                have heq : wordRunEnd s j + (k - wordRunEnd s j) = k := by omega
                rwa [heq] at this
              · exact (markerCheck_spec hm).2
            omega
          · -- the emitted match ends before i; continue after it
            have hge : wordRunEnd s j + 5 ≤ i := by omega
            have hjw : j < wordRunEnd s j := wordRunEnd_gt hw
            have hrec := ih (wordRunEnd s j + 5) i re (by omega) hge hwi hmax hrun hmk
            rcases hrec with hmem | ⟨i2, re2, hmem, h1, h2, h3⟩
            · exact Or.inl (List.mem_cons_of_mem _ hmem)
            · exact Or.inr ⟨i2, re2, List.mem_cons_of_mem _ hmem, h1, h2, h3⟩
      · rw [if_neg hm]
        have hji' : j ≠ i := by
          intro heq
          subst heq
          rw [hrun] at hm
          exact hm hmk
        have hrec := ih (j + 1) i re (by omega) (by omega) hwi hmax hrun hmk
        exact hrec
    · rw [if_neg hw]
      have hji' : j ≠ i := by
        intro heq
        subst heq
        exact hw hwi
      exact ih (j + 1) i re (by omega) (by omega) hwi hmax hrun hmk

theorem findRubi_complete {s : List Char} {i re : Nat}
    (hwi : wordCharAt s i = true) (hmax : i = 0 ∨ wordCharAt s (i - 1) = false)
    (hrun : wordRunEnd s i = re) (hmk : markerCheck s re = true) :
    (i, re, re + 5) ∈ findRubi s ∨
    ∃ i2 re2, (i2, re2, re2 + 5) ∈ findRubi s ∧ i2 < i ∧ i < re2 + 5 ∧ re ≤ re2 + 5 :=
  findRubiF_complete (s.length + 1) 0 i re (by omega) (Nat.zero_le _) hwi hmax hrun hmk

/-- dictVite: the concrete dictionary of the specification scenarios. -/
def dictVite : List (List Char × Term) :=
  [("Vite".toList, ⟨"Vite".toList, "ヴィート".toList, []⟩)]

/-- docOneText models the goldmark AST of a one-line paragraph document:
Document containing a Paragraph containing one Text node over [a, b). -/
def docOneText (a b : Nat) : MdNode := .node .other [.node .other [.text a b]]

theorem manualStep_patches_mono {content : List Char} {tm : List (List Char × Term)}
    {segStart : Nat} {st : WalkSt} {m : Nat × Nat × Nat} {p : Patch}
    (h : p ∈ st.patches) : p ∈ (manualStep content tm segStart st m).patches := by
  simp only [manualStep]
  cases tm.lookup (sliceN content (segStart + m.1) (segStart + m.2.1)) with
  | none => exact List.mem_append_left _ h
  | some t => exact List.mem_append_left _ h

theorem manualStep_warnings_mono {content : List Char} {tm : List (List Char × Term)}
    {segStart : Nat} {st : WalkSt} {m : Nat × Nat × Nat} {w : List Char}
    (h : w ∈ st.warnings) : w ∈ (manualStep content tm segStart st m).warnings := by
  simp only [manualStep]
  cases tm.lookup (sliceN content (segStart + m.1) (segStart + m.2.1)) with
  | none => exact List.mem_append_left _ h
  | some t => exact h

theorem manualFold_patches_mono {content : List Char} {tm : List (List Char × Term)}
    {segStart : Nat} {p : Patch} :
    ∀ {ms : List (Nat × Nat × Nat)} {st : WalkSt}, p ∈ st.patches →
    p ∈ (ms.foldl (manualStep content tm segStart) st).patches := by
  intro ms
  induction ms with
  | nil => intro st h; exact h
  | cons m rest ih =>
    intro st h
    exact ih (manualStep_patches_mono h)

theorem manualFold_warnings_mono {content : List Char} {tm : List (List Char × Term)}
    {segStart : Nat} {w : List Char} :
    ∀ {ms : List (Nat × Nat × Nat)} {st : WalkSt}, w ∈ st.warnings →
    w ∈ (ms.foldl (manualStep content tm segStart) st).warnings := by
  intro ms
  induction ms with
  | nil => intro st h; exact h
  | cons m rest ih =>
    intro st h
    exact ih (manualStep_warnings_mono h)

theorem manualStep_eq_some {content : List Char} {tm : List (List Char × Term)}
    {segStart : Nat} {st : WalkSt} {m : Nat × Nat × Nat} {t : Term}
    (ht : tm.lookup (sliceN content (segStart + m.1) (segStart + m.2.1)) = some t) :
    manualStep content tm segStart st m =
      { st with patches := st.patches ++
          [⟨((segStart + m.1 : Nat) : Int), ((segStart + m.2.2 : Nat) : Int),
            rubyFor (sliceN content (segStart + m.1) (segStart + m.2.1)) t.yomi⟩] } := by
  unfold manualStep
  rw [ht]

theorem manualStep_eq_none {content : List Char} {tm : List (List Char × Term)}
    {segStart : Nat} {st : WalkSt} {m : Nat × Nat × Nat}
    (ht : tm.lookup (sliceN content (segStart + m.1) (segStart + m.2.1)) = none) :
    manualStep content tm segStart st m =
      { st with
          patches := st.patches ++
            [⟨((segStart + m.2.1 : Nat) : Int), ((segStart + m.2.2 : Nat) : Int), []⟩],
          warnings := st.warnings ++ [sliceN content (segStart + m.1) (segStart + m.2.1)] } := by
  unfold manualStep
  rw [ht]

theorem manualFold_emits {content : List Char} {tm : List (List Char × Term)}
    {segStart : Nat} :
    ∀ (ms : List (Nat × Nat × Nat)) (st : WalkSt) (m : Nat × Nat × Nat), m ∈ ms →
    (∀ t, tm.lookup (sliceN content (segStart + m.1) (segStart + m.2.1)) = some t →
      (⟨((segStart + m.1 : Nat) : Int), ((segStart + m.2.2 : Nat) : Int),
          rubyFor (sliceN content (segStart + m.1) (segStart + m.2.1)) t.yomi⟩ : Patch)
        ∈ (ms.foldl (manualStep content tm segStart) st).patches) ∧
    (tm.lookup (sliceN content (segStart + m.1) (segStart + m.2.1)) = none →
      (⟨((segStart + m.2.1 : Nat) : Int), ((segStart + m.2.2 : Nat) : Int), []⟩ : Patch)
          ∈ (ms.foldl (manualStep content tm segStart) st).patches ∧
        sliceN content (segStart + m.1) (segStart + m.2.1)
          ∈ (ms.foldl (manualStep content tm segStart) st).warnings) := by
  intro ms
  induction ms with
  | nil => intro st m h; cases h
  | cons m0 rest ih =>
    intro st m hm
    rw [List.mem_cons] at hm
    rcases hm with rfl | hm
    · constructor
      · intro t ht
        rw [List.foldl_cons]
        refine manualFold_patches_mono ?_
        rw [manualStep_eq_some ht]
        exact List.mem_append_right _ (List.mem_singleton_self _)
      · intro ht
        constructor
        · rw [List.foldl_cons]
          refine manualFold_patches_mono ?_
          rw [manualStep_eq_none ht]
          exact List.mem_append_right _ (List.mem_singleton_self _)
        · rw [List.foldl_cons]
          refine manualFold_warnings_mono ?_
          rw [manualStep_eq_none ht]
          exact List.mem_append_right _ (List.mem_singleton_self _)
    · exact ih _ m hm

/-- C10: the explicit-marker pattern requires a trailing word boundary after
the marker: every match ends exactly at marker end and is followed by a
non-word character or the end of the text; concretely, Vite:rubix produces no
candidate and is left unchanged even though Vite is a dictionary key. -/
theorem claim_C10 :
    (∀ (s : List Char) (i e m : Nat), (i, e, m) ∈ findRubi s →
      m = e + 5 ∧ wordCharAt s m = false)
  ∧ ProcessMarkdown "Vite:rubix".toList false false false dictVite (docOneText 0 10)
      = (some "Vite:rubix".toList, []) := by
  constructor
  · intro s i e m h
    obtain ⟨_, _, _, hmk, hme⟩ := findRubi_sound h
    subst hme
    exact ⟨rfl, (markerCheck_spec hmk).2⟩
  · decide

/-- Witness for C10 at a concrete match. -/
theorem claim_C10_witness :
    ((0, 4, 9) ∈ findRubi "Vite:rubi!".toList) ∧
    (9 = 4 + 5 ∧ wordCharAt "Vite:rubi!".toList 9 = false) :=
  ⟨by decide, claim_C10.1 "Vite:rubi!".toList 0 4 9 (by decide)⟩

/-- C5: in explicit-marker mode an unknown marked word aborts nothing: the
match yields an empty patch covering only the marker plus a diagnostic naming
the word, every match (known or not) yields a patch removing the marker, and
the spec scenario Hello Unknown:rubi! rewrites to Hello Unknown! with a
diagnostic. -/
theorem claim_C5 (content : List Char) (tm : List (List Char × Term)) (s e : Nat)
    (st : WalkSt) (i re me : Nat) (hm : (i, re, me) ∈ findRubi (sliceN content s e)) :
    ((tm.lookup (sliceN content (s + i) (s + re)) = none →
      (⟨((s + re : Nat) : Int), ((s + me : Nat) : Int), []⟩ : Patch)
          ∈ (walkNode content false false tm (.text s e) st).patches ∧
        sliceN content (s + i) (s + re)
          ∈ (walkNode content false false tm (.text s e) st).warnings)
  ∧ (∃ p ∈ (walkNode content false false tm (.text s e) st).patches,
        p.Start ≤ ((s + re : Nat) : Int) ∧ p.End = ((s + me : Nat) : Int)))
  ∧ ProcessMarkdown "Hello Unknown:rubi!".toList false false false dictVite
      (docOneText 0 19) = (some "Hello Unknown!".toList, ["Unknown".toList]) := by
  have hwalk : walkNode content false false tm (.text s e) st
      = processManual content tm s (sliceN content s e) st := by
    simp [walkNode]
  have hemit := @manualFold_emits content tm s
    (findRubi (sliceN content s e)) st (i, re, me) hm
  have hbounds := findRubi_bounds hm
  refine ⟨⟨?_, ?_⟩, by decide⟩
  · intro hnone
    rw [hwalk]
    exact hemit.2 hnone
  · rw [hwalk]
    cases hlook : tm.lookup (sliceN content (s + i) (s + re)) with
    | none =>
      obtain ⟨hp, _⟩ := hemit.2 hlook
      exact ⟨_, hp, by simp, by simp⟩
    | some t =>
      have hp := hemit.1 t hlook
      refine ⟨_, hp, ?_, by simp⟩
      simp only
      have : i ≤ re := le_of_lt hbounds.1
      omega

/-- Witness for C5 at the concrete unknown-term scenario. -/
theorem claim_C5_witness :
    ((6, 13, 18) ∈ findRubi (sliceN "Hello Unknown:rubi!".toList 0 19)) ∧
    dictVite.lookup (sliceN "Hello Unknown:rubi!".toList (0 + 6) (0 + 13)) = none ∧
    ((⟨((0 + 13 : Nat) : Int), ((0 + 18 : Nat) : Int), []⟩ : Patch)
        ∈ (walkNode "Hello Unknown:rubi!".toList false false dictVite
            (.text 0 19) ⟨[], [], []⟩).patches ∧
      sliceN "Hello Unknown:rubi!".toList (0 + 6) (0 + 13)
        ∈ (walkNode "Hello Unknown:rubi!".toList false false dictVite
            (.text 0 19) ⟨[], [], []⟩).warnings) :=
  ⟨by decide, by decide,
    ((claim_C5 "Hello Unknown:rubi!".toList dictVite 0 19 ⟨[], [], []⟩ 6 13 18
      (by decide)).1).1 (by decide)⟩

/-- Counterexample to C2 as stated: in Vite:rubix the maximal word run Vite is
immediately followed by the literal marker and Vite is a dictionary key, yet no
candidate is emitted and the text is left unchanged (the pattern also requires
a trailing word boundary, see C10). -/
theorem claim_C2_counterexample :
    (∀ k, k < 4 → wordCharAt "Vite:rubix".toList k = true) ∧
    wordCharAt "Vite:rubix".toList 4 = false ∧
    markerChars.isPrefixOf ("Vite:rubix".toList.drop 4) = true ∧
    (dictVite.lookup (sliceN "Vite:rubix".toList 0 4)).isSome = true ∧
    (walkNode "Vite:rubix".toList false false dictVite (.text 0 10)
        ⟨[], [], []⟩).patches = [] ∧
    ProcessMarkdown "Vite:rubix".toList false false false dictVite (docOneText 0 10)
      = (some "Vite:rubix".toList, []) := by
  refine ⟨?_, by decide, by decide, by decide, by decide, by decide⟩
  decide

/-- C2 (amended): in explicit-marker mode, for every maximal word run
immediately followed by the marker that is in turn followed by a non-word
character or the end of the text, with the word a dictionary key, either the
candidate covering word plus marker with the escaped ruby replacement is
emitted, or the run lies inside the span of an earlier match; the concrete
scenario Hello Vite:rubi! yields the ruby-annotated output. -/
theorem claim_C2 :
    (∀ (content : List Char) (tm : List (List Char × Term)) (s e : Nat)
      (st : WalkSt) (i re : Nat) (t : Term),
      (∀ k, i ≤ k → k < re → wordCharAt (sliceN content s e) k = true) →
      i < re →
      (i = 0 ∨ wordCharAt (sliceN content s e) (i - 1) = false) →
      wordCharAt (sliceN content s e) re = false →
      markerCheck (sliceN content s e) re = true →
      tm.lookup (sliceN content (s + i) (s + re)) = some t →
      ((⟨((s + i : Nat) : Int), ((s + (re + 5) : Nat) : Int),
          rubyFor (sliceN content (s + i) (s + re)) t.yomi⟩ : Patch)
        ∈ (walkNode content false false tm (.text s e) st).patches
      ∨ ∃ i2 re2, (i2, re2, re2 + 5) ∈ findRubi (sliceN content s e) ∧
          i2 < i ∧ i < re2 + 5 ∧ re ≤ re2 + 5))
  ∧ ProcessMarkdown "Hello Vite:rubi!".toList false false false dictVite
      (docOneText 0 16)
      = (some "Hello <ruby>Vite<rt>ヴィート</rt></ruby>!".toList, []) := by
  constructor
  · intro content tm s e st i re t hword hlt hmaxl hstop hmark hlook
    have hwi : wordCharAt (sliceN content s e) i = true := hword i (le_refl i) hlt
    have hrun : wordRunEnd (sliceN content s e) i = re :=
      wordRunEnd_eq (le_of_lt hlt) hword hstop
    have hwalk : walkNode content false false tm (.text s e) st
        = processManual content tm s (sliceN content s e) st := by
      simp [walkNode]
    rcases findRubi_complete hwi hmaxl hrun hmark with hmem | hcov
    · left
      rw [hwalk]
      exact (manualFold_emits (findRubi (sliceN content s e)) st (i, re, re + 5)
        hmem).1 t hlook
    · right
      exact hcov
  · decide

/-- Witness for the amended C2 at the concrete scenario. -/
theorem claim_C2_witness :
    ((∀ k, 6 ≤ k → k < 10 → wordCharAt (sliceN "Hello Vite:rubi!".toList 0 16) k = true) ∧
      (6 : Nat) < 10 ∧
      ((6 : Nat) = 0 ∨ wordCharAt (sliceN "Hello Vite:rubi!".toList 0 16) (6 - 1) = false) ∧
      wordCharAt (sliceN "Hello Vite:rubi!".toList 0 16) 10 = false ∧
      markerCheck (sliceN "Hello Vite:rubi!".toList 0 16) 10 = true ∧
      dictVite.lookup (sliceN "Hello Vite:rubi!".toList (0 + 6) (0 + 10))
        = some ⟨"Vite".toList, "ヴィート".toList, []⟩) ∧
    ((⟨((0 + 6 : Nat) : Int), ((0 + (10 + 5) : Nat) : Int),
        rubyFor (sliceN "Hello Vite:rubi!".toList (0 + 6) (0 + 10))
          (Term.mk "Vite".toList "ヴィート".toList []).yomi⟩ : Patch)
      ∈ (walkNode "Hello Vite:rubi!".toList false false dictVite (.text 0 16)
          ⟨[], [], []⟩).patches
    ∨ ∃ i2 re2, (i2, re2, re2 + 5) ∈ findRubi (sliceN "Hello Vite:rubi!".toList 0 16) ∧
        i2 < 6 ∧ 6 < re2 + 5 ∧ 10 ≤ re2 + 5) :=
  ⟨⟨by intro k h1 h2; interval_cases k <;> decide, by decide, by decide, by decide,
      by decide, by decide⟩,
    claim_C2.1 "Hello Vite:rubi!".toList dictVite 0 16 ⟨[], [], []⟩ 6 10
      ⟨"Vite".toList, "ヴィート".toList, []⟩
      (by intro k h1 h2; interval_cases k <;> decide) (by decide) (by decide) (by decide)
      (by decide) (by decide)⟩

/-- wholeWordOccurrence u t i: term t occurs at position i of u bounded on
each side by a non-word character or the edge of the span. -/
def wholeWordOccurrence (u t : List Char) (i : Nat) : Prop :=
  t.isPrefixOf (u.drop i) = true ∧ (i = 0 ∨ wordCharAt u (i - 1) = false) ∧
    wordCharAt u (i + t.length) = false

instance (u t : List Char) (i : Nat) : Decidable (wholeWordOccurrence u t i) := by
  unfold wholeWordOccurrence; infer_instance

theorem occ_word_inside {s t : List Char} (hw : ∀ c ∈ t, isWordChar c = true)
    {i k : Nat} (hpre : t.isPrefixOf (s.drop i) = true) (hk : k < t.length) :
    wordCharAt s (i + k) = true := by
  have h := prefixAt_getElem hpre hk
  have h2 : t[k]? = some (t.get ⟨k, hk⟩) := List.getElem?_eq_getElem hk
  rw [h2] at h
  rw [wordCharAt_of_getElem h]
  exact hw _ (t.get_mem k hk)

theorem scanCond_iff_occ {s t : List Char} (hw : ∀ c ∈ t, isWordChar c = true)
    (hne : t ≠ []) (i : Nat) :
    (t.isPrefixOf (s.drop i) && boundaryAt s i && boundaryAt s (i + t.length)) = true
      ↔ wholeWordOccurrence s t i := by
  have hlen : 0 < t.length := List.length_pos.mpr hne
  constructor
  · intro h
    simp only [Bool.and_eq_true] at h
    obtain ⟨⟨hpre, hb1⟩, hb2⟩ := h
    have hwi : wordCharAt s i = true := by
      have := occ_word_inside hw hpre hlen
      simpa using this
    have hwlast : wordCharAt s (i + (t.length - 1)) = true :=
      occ_word_inside hw hpre (by omega)
    refine ⟨hpre, ?_, ?_⟩
    · by_cases hi : i = 0
      · exact Or.inl hi
      · right
        have hd : decide (0 < i) = true := by simp; omega
        rw [boundaryAt, hd, hwi, Bool.true_and] at hb1
        cases hcase : wordCharAt s (i - 1) with
        | false => rfl
        | true => rw [hcase] at hb1; simp at hb1
    · have hd : decide (0 < i + t.length) = true := by simp; omega
      have hprev : i + t.length - 1 = i + (t.length - 1) := by omega
      rw [boundaryAt, hd, hprev, hwlast, Bool.true_and] at hb2
      cases hcase : wordCharAt s (i + t.length) with
      | false => rfl
      | true => rw [hcase] at hb2; simp at hb2
  · intro ⟨hpre, hl, hr⟩
    have hwi : wordCharAt s i = true := by
      have := occ_word_inside hw hpre hlen
      simpa using this
    have hwlast : wordCharAt s (i + (t.length - 1)) = true :=
      occ_word_inside hw hpre (by omega)
    simp only [Bool.and_eq_true]
    refine ⟨⟨hpre, ?_⟩, ?_⟩
    · rw [boundaryAt, hwi]
      rcases hl with hl | hl
      · subst hl; simp
      · rw [hl]
        simp
    · have hd : decide (0 < i + t.length) = true := by simp; omega
      have hprev : i + t.length - 1 = i + (t.length - 1) := by omega
      rw [boundaryAt, hd, hprev, hwlast, hr]
      simp

theorem occ_disjoint {s t : List Char} (hw : ∀ c ∈ t, isWordChar c = true)
    {j i : Nat} (hj_pre : t.isPrefixOf (s.drop j) = true)
    (hi : wholeWordOccurrence s t i) (hji : j < i) : j + t.length ≤ i := by
  by_contra hc
  push_neg at hc
  have h0 : i ≠ 0 := by omega
  have hprev : wordCharAt s (i - 1) = false := by
    rcases hi.2.1 with h | h
    · exact absurd h h0
    · exact h
  have hk : i - 1 - j < t.length := by omega
  have hword := occ_word_inside hw hj_pre hk
  rw [show j + (i - 1 - j) = i - 1 by omega, hprev] at hword
  cases hword

theorem scanTermF_sound {s t : List Char} :
    ∀ (fuel j a b : Nat), (a, b) ∈ scanTermF s t fuel j →
    j ≤ a ∧ a ≤ s.length ∧ b = a + t.length ∧
      (t.isPrefixOf (s.drop a) && boundaryAt s a && boundaryAt s (a + t.length)) = true := by
  intro fuel
  induction fuel with
  | zero => intro j a b h; simp [scanTermF] at h
  | succ f ih =>
    intro j a b h
    simp only [scanTermF] at h
    by_cases hj : j ≤ s.length
    · rw [if_pos hj] at h
      by_cases hc : (t.isPrefixOf (s.drop j) && boundaryAt s j
          && boundaryAt s (j + t.length)) = true
      · rw [if_pos hc] at h
        rcases List.mem_cons.mp h with heq | htail
        · simp only [Prod.mk.injEq] at heq
          obtain ⟨rfl, rfl⟩ := heq
          exact ⟨le_refl _, hj, rfl, hc⟩
        · have hrec := ih _ a b htail
          refine ⟨?_, hrec.2.1, hrec.2.2.1, hrec.2.2.2⟩
          have := hrec.1
          omega
      · rw [if_neg hc] at h
        have hrec := ih _ a b h
        exact ⟨by omega, hrec.2.1, hrec.2.2.1, hrec.2.2.2⟩
    · rw [if_neg hj] at h
      cases h

theorem scanTerm_sound {s t : List Char} {a b : Nat} (h : (a, b) ∈ scanTermMatches s t) :
    b = a + t.length ∧ t.isPrefixOf (s.drop a) = true := by
  have := scanTermF_sound (s.length + 2) 0 a b h
  have hc := this.2.2.2
  simp only [Bool.and_eq_true] at hc
  exact ⟨this.2.2.1, hc.1.1⟩

theorem scanTermF_complete {s t : List Char} (hw : ∀ c ∈ t, isWordChar c = true)
    (hne : t ≠ []) :
    ∀ (fuel j i : Nat), s.length + 1 ≤ j + fuel → j ≤ i →
    wholeWordOccurrence s t i → (i, i + t.length) ∈ scanTermF s t fuel j := by
  have hlen : 0 < t.length := List.length_pos.mpr hne
  intro fuel
  induction fuel with
  | zero =>
    intro j i hfuel hji hocc
    have := prefixAt_length_ne hocc.1 hne
    omega
  | succ f ih =>
    intro j i hfuel hji hocc
    have hilen : i + t.length ≤ s.length := prefixAt_length_ne hocc.1 hne
    have hcond_i := (scanCond_iff_occ hw hne i).mpr hocc
    simp only [scanTermF, if_pos (show j ≤ s.length by omega)]
    by_cases hc : (t.isPrefixOf (s.drop j) && boundaryAt s j
        && boundaryAt s (j + t.length)) = true
    · rw [if_pos hc]
      by_cases hji' : j = i
      · subst hji'
        exact List.mem_cons_self ..
      · have hjlt : j < i := by omega
        have hpre_j : t.isPrefixOf (s.drop j) = true := by
          simp only [Bool.and_eq_true] at hc
          exact hc.1.1
        have hdisj := occ_disjoint hw hpre_j hocc hjlt
        have hmax : max t.length 1 = t.length := by omega
        rw [hmax]
        refine List.mem_cons_of_mem _ (ih (j + t.length) i (by omega) hdisj hocc)
    · rw [if_neg hc]
      have hji' : j ≠ i := by
        intro heq
        subst heq
        exact hc hcond_i
      exact ih (j + 1) i (by omega) (by omega) hocc

theorem scanTerm_complete {s t : List Char} (hw : ∀ c ∈ t, isWordChar c = true)
    (hne : t ≠ []) {i : Nat} (hocc : wholeWordOccurrence s t i) :
    (i, i + t.length) ∈ scanTermMatches s t :=
  scanTermF_complete hw hne (s.length + 2) 0 i (by omega) (Nat.zero_le _) hocc

theorem scanStep_patches_mono {firstOnly : Bool} {textStr : List Char} {td : Term}
    {segStart : Nat} {st : WalkSt} {m : Nat × Nat} {p : Patch}
    (h : p ∈ st.patches) : p ∈ (scanStep firstOnly textStr td segStart st m).patches := by
  unfold scanStep
  by_cases hc : (firstOnly && decide (sliceN textStr m.1 m.2 ∈ st.processed)) = true
  · rw [if_pos hc]; exact h
  · rw [if_neg hc]; exact List.mem_append_left _ h

theorem scanFold_patches_mono {firstOnly : Bool} {textStr : List Char} {td : Term}
    {segStart : Nat} {p : Patch} :
    ∀ {ms : List (Nat × Nat)} {st : WalkSt}, p ∈ st.patches →
    p ∈ (ms.foldl (scanStep firstOnly textStr td segStart) st).patches := by
  intro ms
  induction ms with
  | nil => intro st h; exact h
  | cons m rest ih => intro st h; exact ih (scanStep_patches_mono h)

theorem scanEntry_patches_mono {firstOnly : Bool} {segStart : Nat} {textStr : List Char}
    {st : WalkSt} {kv : List Char × Term} {p : Patch} (h : p ∈ st.patches) :
    p ∈ (scanEntry firstOnly segStart textStr st kv).patches :=
  scanFold_patches_mono h

theorem processScan_patches_mono {firstOnly : Bool} {segStart : Nat} {textStr : List Char}
    {p : Patch} :
    ∀ (tm : List (List Char × Term)) {st : WalkSt}, p ∈ st.patches →
    p ∈ (processScan firstOnly tm segStart textStr st).patches := by
  intro tm
  induction tm with
  | nil => intro st h; exact h
  | cons kv rest ih =>
    intro st h
    exact ih (scanEntry_patches_mono h)

theorem scanFold_emits_plain {textStr : List Char} {td : Term} {segStart : Nat} :
    ∀ (ms : List (Nat × Nat)) (st : WalkSt) (m : Nat × Nat), m ∈ ms →
    (⟨((segStart + m.1 : Nat) : Int), ((segStart + m.2 : Nat) : Int),
        rubyFor (sliceN textStr m.1 m.2) td.yomi⟩ : Patch)
      ∈ (ms.foldl (scanStep false textStr td segStart) st).patches := by
  intro ms
  induction ms with
  | nil => intro st m h; cases h
  | cons m0 rest ih =>
    intro st m hm
    rw [List.mem_cons] at hm
    rw [List.foldl_cons]
    rcases hm with rfl | hm
    · refine scanFold_patches_mono ?_
      simp only [scanStep, Bool.false_and]
      rw [if_neg Bool.false_ne_true]
      exact List.mem_append_right _ (List.mem_singleton_self _)
    · exact ih _ m hm

theorem processScan_emits_plain (segStart : Nat) (textStr : List Char) :
    ∀ (tm : List (List Char × Term)) (st : WalkSt) (kv : List Char × Term),
    kv ∈ tm → ∀ m ∈ scanTermMatches textStr kv.1,
    (⟨((segStart + m.1 : Nat) : Int), ((segStart + m.2 : Nat) : Int),
        rubyFor (sliceN textStr m.1 m.2) kv.2.yomi⟩ : Patch)
      ∈ (processScan false tm segStart textStr st).patches := by
  intro tm
  induction tm with
  | nil => intro st kv h; cases h
  | cons kv0 rest ih =>
    intro st kv hkv m hm
    rw [List.mem_cons] at hkv
    simp only [processScan, List.foldl_cons]
    rcases hkv with rfl | hkv
    · refine processScan_patches_mono rest ?_
      exact scanFold_emits_plain _ st m hm
    · exact ih _ kv hkv m hm

/-- Counterexample to C7 as stated: the dictionary term +a occurs in the text
+a as a whole word (bounded by the span edges), yet scan mode locates no
occurrence and emits no candidate, because the regex word-boundary assertion
fails next to a term that starts or ends with a non-word character. -/
theorem claim_C7_counterexample :
    wholeWordOccurrence "+a".toList "+a".toList 0 ∧
    scanTermMatches "+a".toList "+a".toList = [] ∧
    (walkNode "+a".toList true false
        [("+a".toList, ⟨"+a".toList, "a".toList, []⟩)] (.text 0 2)
        ⟨[], [], []⟩).patches = [] := by
  refine ⟨by decide, by decide, by decide⟩

/-- C7 (amended): in scan mode without first-only, for every dictionary entry
whose term consists solely of word characters, a candidate span is emitted for
every occurrence of the term bounded on each side by a non-word character or
the span edge; for terms containing boundary non-word characters the regex
word-boundary semantics decides instead. -/
theorem claim_C7 (content : List Char) (tm : List (List Char × Term)) (s e : Nat)
    (st : WalkSt) (tstr : List Char) (td : Term) (i : Nat)
    (hmem : (tstr, td) ∈ tm)
    (hw : ∀ c ∈ tstr, isWordChar c = true) (hne : tstr ≠ [])
    (hocc : wholeWordOccurrence (sliceN content s e) tstr i) :
    (⟨((s + i : Nat) : Int), ((s + (i + tstr.length) : Nat) : Int),
        rubyFor tstr td.yomi⟩ : Patch)
      ∈ (walkNode content true false tm (.text s e) st).patches := by
  have hwalk : walkNode content true false tm (.text s e) st
      = processScan false tm s (sliceN content s e) st := by
    simp [walkNode]
  rw [hwalk]
  have hmatch := scanTerm_complete hw hne hocc
  have hslice : sliceN (sliceN content s e) i (i + tstr.length) = tstr :=
    sliceN_of_prefix hocc.1
  have hp := processScan_emits_plain s (sliceN content s e)
    tm st (tstr, td) hmem (i, i + tstr.length) hmatch
  rw [hslice] at hp
  exact hp

/-- Witness for the amended C7: Vite is found as a whole word in scan mode. -/
theorem claim_C7_witness :
    (("Vite".toList, Term.mk "Vite".toList "ヴィート".toList []) ∈ dictVite ∧
      (∀ c ∈ "Vite".toList, isWordChar c = true) ∧ "Vite".toList ≠ [] ∧
      wholeWordOccurrence (sliceN "Hi Vite!".toList 0 8) "Vite".toList 3) ∧
    (⟨((0 + 3 : Nat) : Int), ((0 + (3 + "Vite".toList.length) : Nat) : Int),
        rubyFor "Vite".toList (Term.mk "Vite".toList "ヴィート".toList []).yomi⟩ : Patch)
      ∈ (walkNode "Hi Vite!".toList true false dictVite (.text 0 8)
          ⟨[], [], []⟩).patches :=
  ⟨⟨by decide, by decide, by decide, by decide⟩,
    claim_C7 "Hi Vite!".toList dictVite 0 8 ⟨[], [], []⟩ "Vite".toList
      (Term.mk "Vite".toList "ヴィート".toList []) 3 (by decide) (by decide) (by decide)
      (by decide)⟩

mutual

/-- allTexts: the source segments of all text leaves of a node. -/
def allTexts : MdNode → List (Nat × Nat)
  | .text a b => [(a, b)]
  | .node _ cs => allTextsList cs

/-- allTextsList: allTexts over a child list, in document order. -/
def allTextsList : List MdNode → List (Nat × Nat)
  | [] => []
  | n :: ns => allTexts n ++ allTextsList ns

end

mutual

/-- exposedTexts: the segments of text leaves the walker exposes to the
matcher (text leaves not under an excluded node). -/
def exposedTexts : MdNode → List (Nat × Nat)
  | .text a b => [(a, b)]
  | .node k cs => if excludedKind k then [] else exposedTextsList cs

/-- exposedTextsList: exposedTexts over a child list. -/
def exposedTextsList : List MdNode → List (Nat × Nat)
  | [] => []
  | n :: ns => exposedTexts n ++ exposedTextsList ns

end

mutual

/-- hiddenTexts: the segments of text leaves inside excluded subtrees (code
blocks, fenced code blocks, HTML blocks, raw HTML, code spans). -/
def hiddenTexts : MdNode → List (Nat × Nat)
  | .text _ _ => []
  | .node k cs => if excludedKind k then allTextsList cs else hiddenTextsList cs

/-- hiddenTextsList: hiddenTexts over a child list. -/
def hiddenTextsList : List MdNode → List (Nat × Nat)
  | [] => []
  | n :: ns => hiddenTexts n ++ hiddenTextsList ns

end

/-- emittedBound: the walker patch bounds delivered by one text node at
segStart with the given textStr. -/
def emittedBound (segStart len : Nat) (p : Patch) : Prop :=
  (segStart : Int) ≤ p.Start ∧ p.Start ≤ p.End ∧ p.End ≤ ((segStart + len : Nat) : Int)

theorem manualFold_located {content : List Char} {tm : List (List Char × Term)}
    {segStart : Nat} {textStr : List Char} :
    ∀ (ms : List (Nat × Nat × Nat)) (st : WalkSt),
    (∀ m ∈ ms, m.1 ≤ m.2.1 ∧ m.2.1 ≤ m.2.2 ∧ m.2.2 ≤ textStr.length) →
    ∀ p ∈ (ms.foldl (manualStep content tm segStart) st).patches,
    p ∈ st.patches ∨ emittedBound segStart textStr.length p := by
  intro ms
  induction ms with
  | nil => intro st _ p hp; exact Or.inl hp
  | cons m rest ih =>
    intro st hms p hp
    rw [List.foldl_cons] at hp
    have hm := hms m (by simp)
    rcases ih _ (fun m' hm' => hms m' (List.mem_cons_of_mem _ hm')) p hp with hin | hb
    · cases hlook : tm.lookup (sliceN content (segStart + m.1) (segStart + m.2.1)) with
      | some t =>
        rw [manualStep_eq_some hlook] at hin
        simp only at hin
        rcases List.mem_append.mp hin with h | h
        · exact Or.inl h
        · right
          rw [List.mem_singleton] at h
          subst h
          exact ⟨by simp only; omega, by simp only; omega, by simp only; omega⟩
      | none =>
        rw [manualStep_eq_none hlook] at hin
        simp only at hin
        rcases List.mem_append.mp hin with h | h
        · exact Or.inl h
        · right
          rw [List.mem_singleton] at h
          subst h
          exact ⟨by simp only; omega, by simp only; omega, by simp only; omega⟩
    · exact Or.inr hb

theorem processManual_located {content : List Char} {tm : List (List Char × Term)}
    {segStart : Nat} {textStr : List Char} {st : WalkSt} :
    ∀ p ∈ (processManual content tm segStart textStr st).patches,
    p ∈ st.patches ∨ emittedBound segStart textStr.length p := by
  refine manualFold_located (findRubi textStr) st ?_
  intro m hm
  obtain ⟨a, b, c⟩ := m
  have hb := findRubi_bounds hm
  simp only
  omega

theorem scanFold_located {firstOnly : Bool} {textStr : List Char} {td : Term}
    {segStart : Nat} :
    ∀ (ms : List (Nat × Nat)) (st : WalkSt),
    (∀ m ∈ ms, m.1 ≤ m.2 ∧ m.2 ≤ textStr.length) →
    ∀ p ∈ (ms.foldl (scanStep firstOnly textStr td segStart) st).patches,
    p ∈ st.patches ∨ emittedBound segStart textStr.length p := by
  intro ms
  induction ms with
  | nil => intro st _ p hp; exact Or.inl hp
  | cons m rest ih =>
    intro st hms p hp
    rw [List.foldl_cons] at hp
    have hm := hms m (by simp)
    rcases ih _ (fun m' hm' => hms m' (List.mem_cons_of_mem _ hm')) p hp with hin | hb
    · unfold scanStep at hin
      by_cases hc : (firstOnly && decide (sliceN textStr m.1 m.2 ∈ st.processed)) = true
      · rw [if_pos hc] at hin
        exact Or.inl hin
      · rw [if_neg hc] at hin
        simp only at hin
        rcases List.mem_append.mp hin with h | h
        · exact Or.inl h
        · right
          rw [List.mem_singleton] at h
          subst h
          exact ⟨by simp only; omega, by simp only; omega, by simp only; omega⟩
    · exact Or.inr hb

theorem processScan_located {firstOnly : Bool} {segStart : Nat} {textStr : List Char} :
    ∀ (tm : List (List Char × Term)) (st : WalkSt),
    ∀ p ∈ (processScan firstOnly tm segStart textStr st).patches,
    p ∈ st.patches ∨ emittedBound segStart textStr.length p := by
  intro tm
  induction tm with
  | nil => intro st p hp; exact Or.inl hp
  | cons kv rest ih =>
    intro st p hp
    simp only [processScan, List.foldl_cons] at hp
    rcases ih _ p hp with hin | hb
    · refine (scanFold_located (scanTermMatches textStr kv.1) st ?_ p hin).imp id id
      intro m hm
      obtain ⟨a, b⟩ := m
      have hs := scanTermF_sound (textStr.length + 2) 0 a b hm
      have hpre : kv.1.isPrefixOf (textStr.drop a) = true := by
        have hc := hs.2.2.2
        simp only [Bool.and_eq_true] at hc
        exact hc.1.1
      have hlen := prefixAt_length hpre
      have ha := hs.2.1
      have hb := hs.2.2.1
      simp only
      omega
    · exact Or.inr hb

mutual

theorem walkNode_located (content : List Char) (scan firstOnly : Bool)
    (tm : List (List Char × Term)) :
    ∀ (n : MdNode) (st : WalkSt) (p : Patch),
    p ∈ (walkNode content scan firstOnly tm n st).patches →
    p ∈ st.patches ∨ ∃ ab ∈ exposedTexts n,
      (ab.1 : Int) ≤ p.Start ∧ p.Start ≤ p.End ∧
        p.End ≤ ((ab.1 + (sliceN content ab.1 ab.2).length : Nat) : Int) := by
  intro n st p hp
  match n with
  | .text a b =>
    simp only [walkNode] at hp
    by_cases hscan : scan = true
    · rw [hscan, if_pos rfl] at hp
      rcases processScan_located tm st p hp with h | h
      · exact Or.inl h
      · exact Or.inr ⟨(a, b), by simp [exposedTexts], h.1, h.2.1, h.2.2⟩
    · rw [if_neg hscan] at hp
      rcases processManual_located p hp with h | h
      · exact Or.inl h
      · exact Or.inr ⟨(a, b), by simp [exposedTexts], h.1, h.2.1, h.2.2⟩
  | .node k cs =>
    simp only [walkNode] at hp
    by_cases hk : excludedKind k = true
    · rw [if_pos hk] at hp
      exact Or.inl hp
    · rw [if_neg hk] at hp
      rcases walkNodes_located content scan firstOnly tm cs st p hp with h | ⟨ab, hab, hb⟩
      · exact Or.inl h
      · right
        refine ⟨ab, ?_, hb⟩
        simp only [exposedTexts, if_neg hk]
        exact hab

theorem walkNodes_located (content : List Char) (scan firstOnly : Bool)
    (tm : List (List Char × Term)) :
    ∀ (ns : List MdNode) (st : WalkSt) (p : Patch),
    p ∈ (walkNodes content scan firstOnly tm ns st).patches →
    p ∈ st.patches ∨ ∃ ab ∈ exposedTextsList ns,
      (ab.1 : Int) ≤ p.Start ∧ p.Start ≤ p.End ∧
        p.End ≤ ((ab.1 + (sliceN content ab.1 ab.2).length : Nat) : Int) := by
  intro ns st p hp
  match ns with
  | [] => exact Or.inl hp
  | n :: ns2 =>
    simp only [walkNodes] at hp
    rcases walkNodes_located content scan firstOnly tm ns2
        (walkNode content scan firstOnly tm n st) p hp with h | ⟨ab, hab, hb⟩
    · rcases walkNode_located content scan firstOnly tm n st p h with h2 | ⟨ab, hab, hb⟩
      · exact Or.inl h2
      · exact Or.inr ⟨ab, by
          simp only [exposedTextsList]
          exact List.mem_append_left _ hab, hb⟩
    · exact Or.inr ⟨ab, by
        simp only [exposedTextsList]
        exact List.mem_append_right _ hab, hb⟩

end

/-- C1: exclusion invariant. If the parser delivers a tree whose exposed text
segments are disjoint from the text segments inside excluded (code or raw
markup) subtrees, then no candidate span produced by the walk intersects any
text segment inside an excluded subtree, in either mode. -/
theorem claim_C1 (content : List Char) (scan firstOnly : Bool)
    (tm : List (List Char × Term)) (doc : MdNode)
    (hdisj : ∀ a ∈ exposedTexts doc, ∀ b ∈ hiddenTexts doc, b.2 ≤ a.1 ∨ a.2 ≤ b.1) :
    ∀ p ∈ (walkNode content scan firstOnly tm doc ⟨[], [], []⟩).patches,
    ∀ b ∈ hiddenTexts doc,
      ¬ (max p.Start (b.1 : Int) < min p.End (b.2 : Int)) := by
  intro p hp b hb
  rcases walkNode_located content scan firstOnly tm doc ⟨[], [], []⟩ p hp
    with h | ⟨ab, hab, h1, h2, h3⟩
  · cases h
  · have hlen : (sliceN content ab.1 ab.2).length ≤ ab.2 - ab.1 := by
      simp only [sliceN, List.length_drop, List.length_take]
      omega
    have hd := hdisj ab hab b hb
    intro hint
    simp only [max_lt_iff, lt_min_iff] at hint
    obtain ⟨⟨i1, i2⟩, i3, i4⟩ := hint
    omega

/-- docCode: a document with a code span containing a text leaf over [0,4)
and an exposed text leaf over [5,9). -/
def docCode : MdNode := .node .other [.node .codeSpan [.text 0 4], .text 5 9]

/-- Witness for C1 on a concrete document with a code span. -/
theorem claim_C1_witness :
    (∀ a ∈ exposedTexts docCode, ∀ b ∈ hiddenTexts docCode, b.2 ≤ a.1 ∨ a.2 ≤ b.1) ∧
    (∀ p ∈ (walkNode "Vite Vite".toList true false dictVite docCode
        ⟨[], [], []⟩).patches,
      ∀ b ∈ hiddenTexts docCode,
        ¬ (max p.Start (b.1 : Int) < min p.End (b.2 : Int))) :=
  ⟨by decide, claim_C1 "Vite Vite".toList true false dictVite docCode (by decide)⟩

/-- addAll: fold addTerm over a list of words. -/
def addAll (P : List (List Char)) (ws : List (List Char)) : List (List Char) :=
  ws.foldl addTerm P

/-- dedupPairs keeps, per key, only the first pair whose key is not already
in the set, mirroring the first-only suppression discipline. -/
def dedupPairs (P : List (List Char)) : List (List Char × Patch) → List (List Char × Patch)
  | [] => []
  | (w, p) :: r => if w ∈ P then dedupPairs P r else (w, p) :: dedupPairs (addTerm P w) r

/-- matchPairs: the (matched word, emitted patch) pairs of one entry's match
list on one text node. -/
def matchPairs (textStr : List Char) (td : Term) (segStart : Nat)
    (ms : List (Nat × Nat)) : List (List Char × Patch) :=
  ms.map (fun m => (sliceN textStr m.1 m.2,
    ⟨((segStart + m.1 : Nat) : Int), ((segStart + m.2 : Nat) : Int),
      rubyFor (sliceN textStr m.1 m.2) td.yomi⟩))

/-- scanPairsText: the pair stream of one text node over the whole
dictionary, in dictionary order. -/
def scanPairsText (content : List Char) (tm : List (List Char × Term))
    (s e : Nat) : List (List Char × Patch) :=
  tm.flatMap (fun kv =>
    matchPairs (sliceN content s e) kv.2 s (scanTermMatches (sliceN content s e) kv.1))

mutual

/-- pairStream: the scan-mode pair stream of a whole subtree, in walk order. -/
def pairStream (content : List Char) (tm : List (List Char × Term)) :
    MdNode → List (List Char × Patch)
  | .text a b => scanPairsText content tm a b
  | .node k cs => if excludedKind k then [] else pairStreamList content tm cs

/-- pairStreamList: pairStream over a child list. -/
def pairStreamList (content : List Char) (tm : List (List Char × Term)) :
    List MdNode → List (List Char × Patch)
  | [] => []
  | n :: ns => pairStream content tm n ++ pairStreamList content tm ns

end

theorem addTerm_of_mem {P : List (List Char)} {w : List Char} (h : w ∈ P) :
    addTerm P w = P := by
  simp [addTerm, h]

theorem addTerm_mem_iff {P : List (List Char)} {w x : List Char} :
    x ∈ addTerm P w ↔ x ∈ P ∨ x = w := by
  unfold addTerm
  by_cases h : w ∈ P
  · rw [if_pos h]
    constructor
    · exact Or.inl
    · rintro (hx | rfl)
      · exact hx
      · exact h
  · rw [if_neg h]
    simp

theorem addAll_append (P : List (List Char)) (K1 K2 : List (List Char)) :
    addAll P (K1 ++ K2) = addAll (addAll P K1) K2 := by
  simp [addAll, List.foldl_append]

theorem dedupPairs_append (P : List (List Char)) (L1 L2 : List (List Char × Patch)) :
    dedupPairs P (L1 ++ L2)
      = dedupPairs P L1 ++ dedupPairs (addAll P (L1.map Prod.fst)) L2 := by
  induction L1 generalizing P with
  | nil => simp [dedupPairs, addAll]
  | cons wp rest ih =>
    obtain ⟨w, p⟩ := wp
    have hcons : ((w, p) :: rest) ++ L2 = (w, p) :: (rest ++ L2) := rfl
    rw [hcons]
    by_cases h : w ∈ P
    · show dedupPairs P ((w, p) :: (rest ++ L2)) = _
      simp only [dedupPairs, if_pos h]
      rw [ih]
      have haa : addAll P (((w, p) :: rest).map Prod.fst)
          = addAll P (rest.map Prod.fst) := by
        simp only [List.map_cons, addAll, List.foldl_cons]
        rw [addTerm_of_mem h]
      rw [haa]
    · simp only [dedupPairs, if_neg h]
      rw [ih]
      have haa : addAll P (((w, p) :: rest).map Prod.fst)
          = addAll (addTerm P w) (rest.map Prod.fst) := by
        simp only [List.map_cons, addAll, List.foldl_cons]
      rw [haa, List.cons_append]

theorem scanStep_plain_eq {textStr : List Char} {td : Term} {segStart : Nat}
    {st : WalkSt} {m : Nat × Nat} :
    scanStep false textStr td segStart st m
      = { st with
            patches := st.patches ++
              [⟨((segStart + m.1 : Nat) : Int), ((segStart + m.2 : Nat) : Int),
                rubyFor (sliceN textStr m.1 m.2) td.yomi⟩],
            processed := addTerm st.processed (sliceN textStr m.1 m.2) } := by
  unfold scanStep
  rw [if_neg]
  simp

theorem scanFold_plain_eq {textStr : List Char} {td : Term} {segStart : Nat} :
    ∀ (ms : List (Nat × Nat)) (st : WalkSt),
    ms.foldl (scanStep false textStr td segStart) st
      = ⟨st.patches ++ (matchPairs textStr td segStart ms).map Prod.snd,
         addAll st.processed ((matchPairs textStr td segStart ms).map Prod.fst),
         st.warnings⟩ := by
  intro ms
  induction ms with
  | nil => intro st; simp [matchPairs, addAll]
  | cons m rest ih =>
    intro st
    rw [List.foldl_cons, scanStep_plain_eq, ih]
    simp only [matchPairs, List.map_cons, WalkSt.mk.injEq]
    refine ⟨?_, ?_, by trivial⟩
    · simp
    · simp only [addAll, List.foldl_cons]

theorem scanFold_first_eq {textStr : List Char} {td : Term} {segStart : Nat} :
    ∀ (ms : List (Nat × Nat)) (st : WalkSt),
    ms.foldl (scanStep true textStr td segStart) st
      = ⟨st.patches ++ (dedupPairs st.processed (matchPairs textStr td segStart ms)).map Prod.snd,
         addAll st.processed ((matchPairs textStr td segStart ms).map Prod.fst),
         st.warnings⟩ := by
  intro ms
  induction ms with
  | nil => intro st; simp [matchPairs, dedupPairs, addAll]
  | cons m rest ih =>
    intro st
    rw [List.foldl_cons]
    by_cases h : sliceN textStr m.1 m.2 ∈ st.processed
    · have hstep : scanStep true textStr td segStart st m = st := by
        simp [scanStep, h]
      rw [hstep, ih]
      simp only [matchPairs, List.map_cons, dedupPairs, if_pos h, WalkSt.mk.injEq]
      refine ⟨by trivial, ?_, by trivial⟩
      simp only [addAll, List.foldl_cons]
      rw [addTerm_of_mem h]
    · have hstep : scanStep true textStr td segStart st m
          = { st with
                patches := st.patches ++
                  [⟨((segStart + m.1 : Nat) : Int), ((segStart + m.2 : Nat) : Int),
                    rubyFor (sliceN textStr m.1 m.2) td.yomi⟩],
                processed := addTerm st.processed (sliceN textStr m.1 m.2) } := by
        simp [scanStep, h]
      rw [hstep, ih]
      simp only [matchPairs, List.map_cons, dedupPairs, if_neg h, WalkSt.mk.injEq]
      refine ⟨?_, ?_, by trivial⟩
      · simp
      · simp only [addAll, List.foldl_cons]

theorem processScan_plain_eq {segStart : Nat} {textStr : List Char} :
    ∀ (tm : List (List Char × Term)) (st : WalkSt),
    processScan false tm segStart textStr st
      = ⟨st.patches ++ (tm.flatMap (fun kv =>
            matchPairs textStr kv.2 segStart (scanTermMatches textStr kv.1))).map Prod.snd,
         addAll st.processed ((tm.flatMap (fun kv =>
            matchPairs textStr kv.2 segStart (scanTermMatches textStr kv.1))).map Prod.fst),
         st.warnings⟩ := by
  intro tm
  induction tm with
  | nil => intro st; simp [processScan, addAll]
  | cons kv rest ih =>
    intro st
    simp only [processScan, List.foldl_cons]
    have hentry : scanEntry false segStart textStr st kv
        = ⟨st.patches ++ (matchPairs textStr kv.2 segStart
              (scanTermMatches textStr kv.1)).map Prod.snd,
           addAll st.processed ((matchPairs textStr kv.2 segStart
              (scanTermMatches textStr kv.1)).map Prod.fst),
           st.warnings⟩ := scanFold_plain_eq _ st
    show processScan false rest segStart textStr (scanEntry false segStart textStr st kv) = _
    rw [ih (scanEntry false segStart textStr st kv), hentry]
    simp only [List.flatMap_cons, List.map_append, WalkSt.mk.injEq]
    exact ⟨by simp, by rw [addAll_append], by trivial⟩

theorem processScan_first_eq {segStart : Nat} {textStr : List Char} :
    ∀ (tm : List (List Char × Term)) (st : WalkSt),
    processScan true tm segStart textStr st
      = ⟨st.patches ++ (dedupPairs st.processed (tm.flatMap (fun kv =>
            matchPairs textStr kv.2 segStart (scanTermMatches textStr kv.1)))).map Prod.snd,
         addAll st.processed ((tm.flatMap (fun kv =>
            matchPairs textStr kv.2 segStart (scanTermMatches textStr kv.1))).map Prod.fst),
         st.warnings⟩ := by
  intro tm
  induction tm with
  | nil => intro st; simp [processScan, addAll, dedupPairs]
  | cons kv rest ih =>
    intro st
    simp only [processScan, List.foldl_cons]
    have hentry : scanEntry true segStart textStr st kv
        = ⟨st.patches ++ (dedupPairs st.processed (matchPairs textStr kv.2 segStart
              (scanTermMatches textStr kv.1))).map Prod.snd,
           addAll st.processed ((matchPairs textStr kv.2 segStart
              (scanTermMatches textStr kv.1)).map Prod.fst),
           st.warnings⟩ := scanFold_first_eq _ st
    show processScan true rest segStart textStr (scanEntry true segStart textStr st kv) = _
    rw [ih (scanEntry true segStart textStr st kv), hentry]
    simp only [List.flatMap_cons, List.map_append, WalkSt.mk.injEq]
    refine ⟨?_, by rw [addAll_append], by trivial⟩
    rw [dedupPairs_append]
    simp

mutual

theorem walkNode_scan_plain (content : List Char) (tm : List (List Char × Term)) :
    ∀ (n : MdNode) (p0 : List Patch) (P w0 : List (List Char)),
    walkNode content true false tm n ⟨p0, P, w0⟩
      = ⟨p0 ++ (pairStream content tm n).map Prod.snd,
         addAll P ((pairStream content tm n).map Prod.fst), w0⟩ := by
  intro n p0 P w0
  match n with
  | .text a b =>
    show processScan false tm a (sliceN content a b) ⟨p0, P, w0⟩ = _
    rw [processScan_plain_eq]
    rfl
  | .node k cs =>
    by_cases hk : excludedKind k = true
    · show (if excludedKind k then _ else _) = _
      rw [if_pos hk]
      simp only [pairStream, if_pos hk]
      simp [addAll]
    · show (if excludedKind k then _ else _) = _
      rw [if_neg hk]
      rw [walkNodes_scan_plain content tm cs p0 P w0]
      simp only [pairStream, if_neg hk]

theorem walkNodes_scan_plain (content : List Char) (tm : List (List Char × Term)) :
    ∀ (ns : List MdNode) (p0 : List Patch) (P w0 : List (List Char)),
    walkNodes content true false tm ns ⟨p0, P, w0⟩
      = ⟨p0 ++ (pairStreamList content tm ns).map Prod.snd,
         addAll P ((pairStreamList content tm ns).map Prod.fst), w0⟩ := by
  intro ns p0 P w0
  match ns with
  | [] => simp [walkNodes, pairStreamList, addAll]
  | n :: ns2 =>
    show walkNodes content true false tm ns2 (walkNode content true false tm n ⟨p0, P, w0⟩) = _
    rw [walkNode_scan_plain content tm n p0 P w0]
    rw [walkNodes_scan_plain content tm ns2 _ _ _]
    simp only [pairStreamList, List.map_append, WalkSt.mk.injEq]
    exact ⟨by simp, by rw [addAll_append], by trivial⟩

end

mutual

theorem walkNode_scan_first (content : List Char) (tm : List (List Char × Term)) :
    ∀ (n : MdNode) (p0 : List Patch) (P w0 : List (List Char)),
    walkNode content true true tm n ⟨p0, P, w0⟩
      = ⟨p0 ++ (dedupPairs P (pairStream content tm n)).map Prod.snd,
         addAll P ((pairStream content tm n).map Prod.fst), w0⟩ := by
  intro n p0 P w0
  match n with
  | .text a b =>
    show processScan true tm a (sliceN content a b) ⟨p0, P, w0⟩ = _
    rw [processScan_first_eq]
    rfl
  | .node k cs =>
    by_cases hk : excludedKind k = true
    · show (if excludedKind k then _ else _) = _
      rw [if_pos hk]
      simp only [pairStream, if_pos hk]
      simp [addAll, dedupPairs]
    · show (if excludedKind k then _ else _) = _
      rw [if_neg hk]
      rw [walkNodes_scan_first content tm cs p0 P w0]
      simp only [pairStream, if_neg hk]

theorem walkNodes_scan_first (content : List Char) (tm : List (List Char × Term)) :
    ∀ (ns : List MdNode) (p0 : List Patch) (P w0 : List (List Char)),
    walkNodes content true true tm ns ⟨p0, P, w0⟩
      = ⟨p0 ++ (dedupPairs P (pairStreamList content tm ns)).map Prod.snd,
         addAll P ((pairStreamList content tm ns).map Prod.fst), w0⟩ := by
  intro ns p0 P w0
  match ns with
  | [] => simp [walkNodes, pairStreamList, addAll, dedupPairs]
  | n :: ns2 =>
    show walkNodes content true true tm ns2 (walkNode content true true tm n ⟨p0, P, w0⟩) = _
    rw [walkNode_scan_first content tm n p0 P w0]
    rw [walkNodes_scan_first content tm ns2 _ _ _]
    simp only [pairStreamList, List.map_append, WalkSt.mk.injEq]
    refine ⟨?_, by rw [addAll_append], by trivial⟩
    rw [dedupPairs_append]
    simp

end

theorem scanPairsText_facts {content : List Char} {tm : List (List Char × Term)}
    {s e : Nat} {wp : List Char × Patch} (h : wp ∈ scanPairsText content tm s e) :
    ∃ kv ∈ tm, ∃ a b : Nat,
      wp.1 = kv.1 ∧ b = a + kv.1.length ∧ b ≤ (sliceN content s e).length ∧
      sliceN (sliceN content s e) a b = wp.1 ∧
      wp.2 = ⟨((s + a : Nat) : Int), ((s + b : Nat) : Int), rubyFor kv.1 kv.2.yomi⟩ := by
  simp only [scanPairsText, List.mem_flatMap] at h
  obtain ⟨kv, hkv, hwp⟩ := h
  simp only [matchPairs, List.mem_map] at hwp
  obtain ⟨m, hm, hwp⟩ := hwp
  obtain ⟨a, b⟩ := m
  have hs := scanTermF_sound ((sliceN content s e).length + 2) 0 a b hm
  have hpre : kv.1.isPrefixOf ((sliceN content s e).drop a) = true := by
    have hc := hs.2.2.2
    simp only [Bool.and_eq_true] at hc
    exact hc.1.1
  have hb : b = a + kv.1.length := hs.2.2.1
  have hslice : sliceN (sliceN content s e) a b = kv.1 := by
    rw [hb]
    exact sliceN_of_prefix hpre
  have hkey : wp.1 = kv.1 := by
    rw [← hwp]
    simpa using hslice
  refine ⟨kv, hkv, a, b, hkey, hb, ?_, by rw [hslice, hkey], ?_⟩
  · have := prefixAt_length hpre
    have ha := hs.2.1
    omega
  · rw [← hwp]
    simp [hslice]

mutual

theorem pairStream_mem (content : List Char) (tm : List (List Char × Term)) :
    ∀ (n : MdNode) (wp : List Char × Patch), wp ∈ pairStream content tm n →
    ∃ ab ∈ allTexts n, wp ∈ scanPairsText content tm ab.1 ab.2 := by
  intro n wp h
  match n with
  | .text a b =>
    exact ⟨(a, b), by simp [allTexts], h⟩
  | .node k cs =>
    simp only [pairStream] at h
    by_cases hk : excludedKind k = true
    · rw [if_pos hk] at h
      cases h
    · rw [if_neg hk] at h
      obtain ⟨ab, hab, hwp⟩ := pairStreamList_mem content tm cs wp h
      exact ⟨ab, by simpa [allTexts] using hab, hwp⟩

theorem pairStreamList_mem (content : List Char) (tm : List (List Char × Term)) :
    ∀ (ns : List MdNode) (wp : List Char × Patch), wp ∈ pairStreamList content tm ns →
    ∃ ab ∈ allTextsList ns, wp ∈ scanPairsText content tm ab.1 ab.2 := by
  intro ns wp h
  match ns with
  | [] => cases h
  | n :: ns2 =>
    simp only [pairStreamList] at h
    rcases List.mem_append.mp h with h | h
    · obtain ⟨ab, hab, hwp⟩ := pairStream_mem content tm n wp h
      exact ⟨ab, by simp only [allTextsList]; exact List.mem_append_left _ hab, hwp⟩
    · obtain ⟨ab, hab, hwp⟩ := pairStreamList_mem content tm ns2 wp h
      exact ⟨ab, by simp only [allTextsList]; exact List.mem_append_right _ hab, hwp⟩

end

theorem sliceN_sliceN {c : List Char} {s e a b : Nat} (hb : b ≤ (sliceN c s e).length)
    (he : e ≤ c.length) :
    sliceN (sliceN c s e) a b = sliceN c (s + a) (s + b) := by
  have hlen : (sliceN c s e).length = e - s := by
    simp only [sliceN, List.length_drop, List.length_take]
    omega
  simp only [sliceN]
  rw [List.take_drop, List.take_take, List.drop_drop]
  by_cases hcase : s + b ≤ e
  · rw [min_eq_left hcase]
  · have hb0 : b = 0 ∧ e < s := by
      rw [hlen] at hb
      omega
    obtain ⟨rfl, hes⟩ := hb0
    have h1 : (c.take (min (s + 0) e)).length ≤ s + a := by
      simp only [List.length_take]
      omega
    have h2 : (c.take (s + 0)).length ≤ s + a := by
      simp only [List.length_take]
      omega
    rw [List.drop_eq_nil_of_le h1, List.drop_eq_nil_of_le h2]

theorem pairStream_key {content : List Char} {tm : List (List Char × Term)}
    {doc : MdNode} {wp : List Char × Patch}
    (hbound : ∀ ab ∈ allTexts doc, ab.2 ≤ content.length)
    (h : wp ∈ pairStream content tm doc) :
    sliceN content wp.2.Start.toNat wp.2.End.toNat = wp.1 := by
  obtain ⟨ab, hab, hwp⟩ := pairStream_mem content tm doc wp h
  obtain ⟨kv, hkv, a, b, hkey, hb, hble, hslice, hpatch⟩ := scanPairsText_facts hwp
  have he := hbound ab hab
  have hcomm := sliceN_sliceN (c := content) (s := ab.1) (e := ab.2) (a := a) (b := b)
    hble he
  rw [hpatch]
  simp only [Int.toNat_natCast]
  rw [← hcomm, hslice]

theorem dedupPairs_subset {P : List (List Char)} :
    ∀ {L : List (List Char × Patch)} {wp : List Char × Patch},
    wp ∈ dedupPairs P L → wp ∈ L := by
  intro L
  induction L generalizing P with
  | nil => intro wp h; cases h
  | cons x rest ih =>
    intro wp h
    obtain ⟨w, p⟩ := x
    simp only [dedupPairs] at h
    by_cases hw : w ∈ P
    · rw [if_pos hw] at h
      exact List.mem_cons_of_mem _ (ih h)
    · rw [if_neg hw] at h
      rcases List.mem_cons.mp h with rfl | h
      · exact List.mem_cons_self ..
      · exact List.mem_cons_of_mem _ (ih h)

theorem filter_map_snd {content : List Char} {w : List Char} :
    ∀ (L : List (List Char × Patch)),
    (∀ wp ∈ L, sliceN content wp.2.Start.toNat wp.2.End.toNat = wp.1) →
    (L.map Prod.snd).filter
        (fun p => decide (sliceN content p.Start.toNat p.End.toNat = w))
      = (L.filter (fun wp => decide (wp.1 = w))).map Prod.snd := by
  intro L
  induction L with
  | nil => intro _; simp
  | cons x rest ih =>
    intro hfid
    obtain ⟨k, p⟩ := x
    have hk : sliceN content p.Start.toNat p.End.toNat = k := hfid (k, p) (by simp)
    have ihr := ih (fun wp hwp => hfid wp (List.mem_cons_of_mem _ hwp))
    simp only [List.map_cons, List.filter_cons, hk]
    by_cases hkw : k = w
    · rw [if_pos (by simp [hkw]), if_pos (by simp [hkw]), List.map_cons, ihr]
    · rw [if_neg (by simp [hkw]), if_neg (by simp [hkw]), ihr]

theorem dedupPairs_filter (w : List Char) :
    ∀ (L : List (List Char × Patch)) (P : List (List Char)),
    (dedupPairs P L).filter (fun wp => decide (wp.1 = w))
      = if w ∈ P then [] else (L.filter (fun wp => decide (wp.1 = w))).take 1 := by
  intro L
  induction L with
  | nil =>
    intro P
    simp only [dedupPairs, List.filter_nil, List.take_nil]
    by_cases h : w ∈ P <;> simp [h]
  | cons x rest ih =>
    intro P
    obtain ⟨k, p⟩ := x
    by_cases hk : k ∈ P
    · show (dedupPairs P ((k, p) :: rest)).filter (fun wp => decide (wp.1 = w)) = _
      rw [show dedupPairs P ((k, p) :: rest) = dedupPairs P rest by
        rw [dedupPairs, if_pos hk]]
      rw [ih]
      by_cases hkw : k = w
      · subst hkw
        rw [if_pos hk, if_pos hk]
      · have hfc : List.filter (fun wp => decide (wp.1 = w)) ((k, p) :: rest)
            = List.filter (fun wp => decide (wp.1 = w)) rest := by
          rw [List.filter_cons, if_neg]
          intro hcontra
          exact hkw (of_decide_eq_true hcontra)
        rw [hfc]
    · show (dedupPairs P ((k, p) :: rest)).filter (fun wp => decide (wp.1 = w)) = _
      rw [show dedupPairs P ((k, p) :: rest)
            = (k, p) :: dedupPairs (addTerm P k) rest by
        rw [dedupPairs, if_neg hk]]
      by_cases hkw : k = w
      · subst hkw
        rw [List.filter_cons, if_pos (decide_eq_true rfl), ih,
          if_pos (addTerm_mem_iff.mpr (Or.inr rfl)), if_neg hk,
          List.filter_cons, if_pos (decide_eq_true rfl)]
        simp
      · rw [List.filter_cons, if_neg (fun hc => hkw (of_decide_eq_true hc)), ih,
          List.filter_cons, if_neg (fun hc => hkw (of_decide_eq_true hc))]
        by_cases hwP : w ∈ P
        · rw [if_pos (addTerm_mem_iff.mpr (Or.inl hwP)), if_pos hwP]
        · have hw2 : w ∉ addTerm P k := by
            rw [addTerm_mem_iff]
            rintro (h | h)
            · exact hwP h
            · exact hkw h.symm
          rw [if_neg hw2, if_neg hwP]

/-- C6: first-only suppression. In scan mode with first-only active, the
patches whose replaced text equals any given word w are exactly the first of
the patches that plain scan mode would produce for w, across the whole
document (the suppression set is shared document-wide, not per text span). -/
theorem claim_C6 (content : List Char) (tm : List (List Char × Term)) (doc : MdNode)
    (hbound : ∀ ab ∈ allTexts doc, ab.2 ≤ content.length) (w : List Char) :
    ((walkNode content true true tm doc ⟨[], [], []⟩).patches.filter
        (fun p => decide (sliceN content p.Start.toNat p.End.toNat = w)))
      = ((walkNode content true false tm doc ⟨[], [], []⟩).patches.filter
          (fun p => decide (sliceN content p.Start.toNat p.End.toNat = w))).take 1 := by
  rw [walkNode_scan_first content tm doc [] [] [], walkNode_scan_plain content tm doc [] [] []]
  simp only [List.nil_append]
  have hfidL : ∀ wp ∈ pairStream content tm doc,
      sliceN content wp.2.Start.toNat wp.2.End.toNat = wp.1 :=
    fun wp hwp => pairStream_key hbound hwp
  have hfidD : ∀ wp ∈ dedupPairs [] (pairStream content tm doc),
      sliceN content wp.2.Start.toNat wp.2.End.toNat = wp.1 :=
    fun wp hwp => hfidL wp (dedupPairs_subset hwp)
  rw [filter_map_snd _ hfidD, filter_map_snd _ hfidL]
  rw [dedupPairs_filter]
  rw [if_neg (List.not_mem_nil w)]
  rw [List.map_take]

/-- Witness for C6 on the concrete first-only scenario. -/
theorem claim_C6_witness :
    (∀ ab ∈ allTexts (docOneText 0 27),
      ab.2 ≤ "Vite is good. Vite is fast.".toList.length) ∧
    ((walkNode "Vite is good. Vite is fast.".toList true true dictVite
        (docOneText 0 27) ⟨[], [], []⟩).patches.filter
        (fun p => decide (sliceN "Vite is good. Vite is fast.".toList
            p.Start.toNat p.End.toNat = "Vite".toList)))
      = ((walkNode "Vite is good. Vite is fast.".toList true false dictVite
          (docOneText 0 27) ⟨[], [], []⟩).patches.filter
          (fun p => decide (sliceN "Vite is good. Vite is fast.".toList
              p.Start.toNat p.End.toNat = "Vite".toList))).take 1 :=
  ⟨by decide,
    claim_C6 "Vite is good. Vite is fast.".toList dictVite (docOneText 0 27)
      (by decide) "Vite".toList⟩

instance : IsAntisymm Patch (fun a b => a.Start < b.Start) :=
  ⟨fun _ _ h1 h2 => absurd (lt_trans h1 h2) (lt_irrefl _)⟩

theorem validate_strict {olen : Int} {l : List Patch}
    (hv : patchesValidate olen l = true) (hne : ∀ p ∈ l, p.Start < p.End) :
    l.Pairwise (fun a b => a.Start < b.Start) := by
  refine (validate_pairwise hv).imp_of_mem ?_
  intro a b ha _ hab
  exact lt_of_lt_of_le (hne a ha) hab

theorem sorted_valid_eq {olen : Int} {p1 p2 : List Patch}
    (hperm : List.Perm p1 p2) (hne : ∀ p ∈ p1, p.Start < p.End)
    (hv : patchesValidate olen (sortPatches p1) = true) :
    sortPatches p1 = sortPatches p2 := by
  have hps : List.Perm (sortPatches p1) (sortPatches p2) :=
    ((sortPatches_perm p1).trans hperm).trans (sortPatches_perm p2).symm
  have hne1 : ∀ p ∈ sortPatches p1, p.Start < p.End :=
    fun p hp => hne p ((sortPatches_perm p1).mem_iff.mp hp)
  have hs1 : (sortPatches p1).Pairwise (fun a b => a.Start < b.Start) :=
    validate_strict hv hne1
  have hnedup : (sortPatches p1).Pairwise (fun a b => a.Start ≠ b.Start) :=
    hs1.imp (fun h => ne_of_lt h)
  have hnedup2 : (sortPatches p2).Pairwise (fun a b => a.Start ≠ b.Start) :=
    (hps.pairwise_iff (fun h => Ne.symm h)).mp hnedup
  have hs2 : (sortPatches p2).Pairwise (fun a b => a.Start < b.Start) := by
    refine ((sortPatches_sorted p2).and hnedup2).imp ?_
    intro a b hab
    exact lt_of_le_of_ne hab.1 hab.2
  exact List.eq_of_perm_of_sorted hps hs1 hs2

theorem ApplyPatches_perm {orig : List Char} {p1 p2 : List Patch}
    (hperm : List.Perm p1 p2) (hne : ∀ p ∈ p1, p.Start < p.End) :
    ApplyPatches orig p1 = ApplyPatches orig p2 := by
  by_cases v1 : patchesValidate (orig.length : Int) (sortPatches p1) = true
  · have heq := sorted_valid_eq hperm hne v1
    simp only [ApplyPatches, heq]
  · by_cases v2 : patchesValidate (orig.length : Int) (sortPatches p2) = true
    · have hne2 : ∀ p ∈ p2, p.Start < p.End :=
        fun p hp => hne p (hperm.mem_iff.mpr hp)
      have heq := sorted_valid_eq hperm.symm hne2 v2
      rw [heq] at v2
      exact absurd v2 v1
    · simp [ApplyPatches, v1, v2]

theorem matchPairs_key {textStr : List Char} {kv : List Char × Term} {segStart : Nat} :
    ∀ wp ∈ matchPairs textStr kv.2 segStart (scanTermMatches textStr kv.1), wp.1 = kv.1 := by
  intro wp h
  simp only [matchPairs, List.mem_map] at h
  obtain ⟨m, hm, hwp⟩ := h
  obtain ⟨a, b⟩ := m
  have hs := scanTerm_sound hm
  have hslice : sliceN textStr a b = kv.1 := by
    rw [hs.1]
    exact sliceN_of_prefix hs.2
  rw [← hwp]
  simpa using hslice

theorem filter_flatMap_blocks {g : (List Char × Term) → List (List Char × Patch)}
    {w : List Char} :
    ∀ (tm : List (List Char × Term)), (∀ kv ∈ tm, ∀ wp ∈ g kv, wp.1 = kv.1) →
    (tm.flatMap g).filter (fun wp => decide (wp.1 = w))
      = tm.flatMap (fun kv => if kv.1 = w then g kv else []) := by
  intro tm
  induction tm with
  | nil => intro _; rfl
  | cons kv rest ih =>
    intro hkeys
    simp only [List.flatMap_cons, List.filter_append]
    rw [ih (fun kv2 h2 => hkeys kv2 (List.mem_cons_of_mem _ h2))]
    congr 1
    by_cases hw : kv.1 = w
    · rw [if_pos hw]
      refine List.filter_eq_self.mpr ?_
      intro x hx
      exact decide_eq_true (by rw [hkeys kv (by simp) x hx, hw])
    · rw [if_neg hw]
      rw [List.filter_eq_nil_iff]
      intro x hx hcontra
      exact hw (by rw [← hkeys kv (by simp) x hx]; exact of_decide_eq_true hcontra)

theorem perm_flatMap_almost_nil {X : Type} {h : (List Char × Term) → List X}
    {w : List Char} (hnil : ∀ kv, kv.1 ≠ w → h kv = []) :
    ∀ {tm1 tm2 : List (List Char × Term)}, List.Perm tm1 tm2 →
    (tm1.map Prod.fst).Nodup → tm1.flatMap h = tm2.flatMap h := by
  intro tm1 tm2 hperm
  induction hperm with
  | nil => intro _; rfl
  | cons x hp ih =>
    intro hnd
    simp only [List.map_cons, List.nodup_cons] at hnd
    simp only [List.flatMap_cons]
    rw [ih hnd.2]
  | swap x y l =>
    intro hnd
    simp only [List.map_cons, List.nodup_cons, List.mem_cons] at hnd
    have hxy : y.1 ≠ x.1 := fun he => hnd.1 (Or.inl he)
    simp only [List.flatMap_cons]
    by_cases hy : y.1 = w
    · have hx : x.1 ≠ w := fun hx => hxy (by rw [hy, hx])
      rw [hnil x hx]
      simp
    · rw [hnil y hy]
      simp
  | trans h12 h23 ih12 ih23 =>
    intro hnd
    rw [ih12 hnd]
    exact ih23 ((h12.map Prod.fst).nodup hnd)

mutual

theorem pairStream_filter_eq (content : List Char) {tm1 tm2 : List (List Char × Term)}
    (hperm : List.Perm tm1 tm2) (hnodup : (tm1.map Prod.fst).Nodup) (w : List Char) :
    ∀ (n : MdNode),
    (pairStream content tm1 n).filter (fun wp => decide (wp.1 = w))
      = (pairStream content tm2 n).filter (fun wp => decide (wp.1 = w)) := by
  intro n
  match n with
  | .text a b =>
    show (scanPairsText content tm1 a b).filter _ = (scanPairsText content tm2 a b).filter _
    rw [scanPairsText, scanPairsText]
    rw [filter_flatMap_blocks tm1 (fun kv _ => matchPairs_key),
      filter_flatMap_blocks tm2 (fun kv _ => matchPairs_key)]
    exact perm_flatMap_almost_nil (fun kv hkv => if_neg hkv) hperm hnodup
  | .node k cs =>
    by_cases hk : excludedKind k = true
    · simp only [pairStream, if_pos hk]
    · simp only [pairStream, if_neg hk]
      exact pairStreamList_filter_eq content hperm hnodup w cs

theorem pairStreamList_filter_eq (content : List Char) {tm1 tm2 : List (List Char × Term)}
    (hperm : List.Perm tm1 tm2) (hnodup : (tm1.map Prod.fst).Nodup) (w : List Char) :
    ∀ (ns : List MdNode),
    (pairStreamList content tm1 ns).filter (fun wp => decide (wp.1 = w))
      = (pairStreamList content tm2 ns).filter (fun wp => decide (wp.1 = w)) := by
  intro ns
  match ns with
  | [] => rfl
  | n :: ns2 =>
    simp only [pairStreamList, List.filter_append]
    rw [pairStream_filter_eq content hperm hnodup w n,
      pairStreamList_filter_eq content hperm hnodup w ns2]

end

mutual

theorem pairStream_perm (content : List Char) {tm1 tm2 : List (List Char × Term)}
    (hperm : List.Perm tm1 tm2) :
    ∀ (n : MdNode), List.Perm (pairStream content tm1 n) (pairStream content tm2 n) := by
  intro n
  match n with
  | .text a b =>
    exact hperm.flatMap_right _
  | .node k cs =>
    by_cases hk : excludedKind k = true
    · simp only [pairStream, if_pos hk]
      exact List.Perm.refl _
    · simp only [pairStream, if_neg hk]
      exact pairStreamList_perm content hperm cs

theorem pairStreamList_perm (content : List Char) {tm1 tm2 : List (List Char × Term)}
    (hperm : List.Perm tm1 tm2) :
    ∀ (ns : List MdNode),
    List.Perm (pairStreamList content tm1 ns) (pairStreamList content tm2 ns) := by
  intro ns
  match ns with
  | [] => exact List.Perm.refl _
  | n :: ns2 =>
    simp only [pairStreamList]
    exact (pairStream_perm content hperm n).append (pairStreamList_perm content hperm ns2)

end

theorem count_filter_key {α : Type} [DecidableEq α] {p : α → Bool} {x : α}
    (hx : p x = true) : ∀ (l : List α), (l.filter p).count x = l.count x := by
  intro l
  induction l with
  | nil => rfl
  | cons y t ih =>
    rw [List.filter_cons]
    by_cases hy : p y = true
    · rw [if_pos hy, List.count_cons, List.count_cons, ih]
    · rw [if_neg hy]
      have hxy : ¬ (y == x) = true := by
        intro he
        exact hy ((of_decide_eq_true he : y = x) ▸ hx)
      rw [List.count_cons, ih, if_neg hxy]
      omega

theorem dedup_perm_of_filters {L1 L2 : List (List Char × Patch)}
    (hf : ∀ w, L1.filter (fun wp => decide (wp.1 = w))
      = L2.filter (fun wp => decide (wp.1 = w))) :
    List.Perm (dedupPairs [] L1) (dedupPairs [] L2) := by
  refine List.perm_iff_count.mpr ?_
  intro x
  have hx : (fun wp => decide (wp.1 = x.1)) x = true := decide_eq_true rfl
  rw [← count_filter_key (p := fun wp => decide (wp.1 = x.1)) hx (dedupPairs [] L1),
    ← count_filter_key (p := fun wp => decide (wp.1 = x.1)) hx (dedupPairs [] L2)]
  rw [dedupPairs_filter, dedupPairs_filter]
  rw [if_neg (List.not_mem_nil _), if_neg (List.not_mem_nil _)]
  rw [hf x.1]

theorem pairStream_span {content : List Char} {tm : List (List Char × Term)}
    {doc : MdNode} (hne : ∀ kv ∈ tm, kv.1 ≠ []) :
    ∀ wp ∈ pairStream content tm doc, wp.2.Start < wp.2.End := by
  intro wp h
  obtain ⟨ab, hab, hwp⟩ := pairStream_mem content tm doc wp h
  obtain ⟨kv, hkv, a, b, hkey, hb, _, _, hpatch⟩ := scanPairsText_facts hwp
  have h1 : 0 < kv.1.length := List.length_pos.mpr (hne kv hkv)
  rw [hpatch]
  simp only
  omega

theorem perm_isEmpty {α : Type} {l1 l2 : List α} (h : List.Perm l1 l2) :
    l1.isEmpty = l2.isEmpty := by
  cases l1 with
  | nil => rw [h.nil_eq]
  | cons a t =>
    cases l2 with
    | nil => exact absurd h.symm (by simp)
    | cons b u => rfl

theorem ProcessMarkdown_scan_plain_eq (content : List Char) (dryRun : Bool)
    (tm : List (List Char × Term)) (doc : MdNode) :
    ProcessMarkdown content dryRun true false tm doc
      = (if dryRun || ((pairStream content tm doc).map Prod.snd).isEmpty
         then (some content, [])
         else (ApplyPatches content ((pairStream content tm doc).map Prod.snd), [])) := by
  show (if dryRun || (walkNode content true false tm doc ⟨[], [], []⟩).patches.isEmpty
      then ((some content : Option (List Char)),
        (walkNode content true false tm doc ⟨[], [], []⟩).warnings)
      else (ApplyPatches content (walkNode content true false tm doc ⟨[], [], []⟩).patches,
        (walkNode content true false tm doc ⟨[], [], []⟩).warnings)) = _
  rw [walkNode_scan_plain content tm doc [] [] []]
  simp

theorem ProcessMarkdown_scan_first_eq (content : List Char) (dryRun : Bool)
    (tm : List (List Char × Term)) (doc : MdNode) :
    ProcessMarkdown content dryRun true true tm doc
      = (if dryRun || ((dedupPairs [] (pairStream content tm doc)).map Prod.snd).isEmpty
         then (some content, [])
         else (ApplyPatches content
            ((dedupPairs [] (pairStream content tm doc)).map Prod.snd), [])) := by
  show (if dryRun || (walkNode content true true tm doc ⟨[], [], []⟩).patches.isEmpty
      then ((some content : Option (List Char)),
        (walkNode content true true tm doc ⟨[], [], []⟩).warnings)
      else (ApplyPatches content (walkNode content true true tm doc ⟨[], [], []⟩).patches,
        (walkNode content true true tm doc ⟨[], [], []⟩).warnings)) = _
  rw [walkNode_scan_first content tm doc [] [] []]
  simp

/-- C9: scan-mode determinism under dictionary storage order. For any two
iteration orders of the same dictionary (with unique, non-empty terms),
ProcessMarkdown in scan mode returns the same result, with or without
first-only and dry-run. -/
theorem claim_C9 (content : List Char) (dryRun firstOnly : Bool)
    (tm1 tm2 : List (List Char × Term)) (doc : MdNode)
    (hperm : List.Perm tm1 tm2) (hnodup : (tm1.map Prod.fst).Nodup)
    (hne : ∀ kv ∈ tm1, kv.1 ≠ []) :
    ProcessMarkdown content dryRun true firstOnly tm1 doc
      = ProcessMarkdown content dryRun true firstOnly tm2 doc := by
  cases firstOnly with
  | false =>
    rw [ProcessMarkdown_scan_plain_eq, ProcessMarkdown_scan_plain_eq]
    have hpp : List.Perm ((pairStream content tm1 doc).map Prod.snd)
        ((pairStream content tm2 doc).map Prod.snd) :=
      (pairStream_perm content hperm doc).map Prod.snd
    have hspan : ∀ p ∈ (pairStream content tm1 doc).map Prod.snd, p.Start < p.End := by
      intro p hp
      obtain ⟨wp, hwp, rfl⟩ := List.mem_map.mp hp
      exact pairStream_span hne wp hwp
    rw [← perm_isEmpty hpp]
    by_cases hd : (dryRun || ((pairStream content tm1 doc).map Prod.snd).isEmpty) = true
    · rw [if_pos hd, if_pos hd]
    · rw [if_neg hd, if_neg hd, ApplyPatches_perm hpp hspan]
  | true =>
    rw [ProcessMarkdown_scan_first_eq, ProcessMarkdown_scan_first_eq]
    have hpp : List.Perm ((dedupPairs [] (pairStream content tm1 doc)).map Prod.snd)
        ((dedupPairs [] (pairStream content tm2 doc)).map Prod.snd) :=
      (dedup_perm_of_filters
        (fun w => pairStream_filter_eq content hperm hnodup w doc)).map Prod.snd
    have hspan : ∀ p ∈ (dedupPairs [] (pairStream content tm1 doc)).map Prod.snd,
        p.Start < p.End := by
      intro p hp
      obtain ⟨wp, hwp, rfl⟩ := List.mem_map.mp hp
      exact pairStream_span hne wp (dedupPairs_subset hwp)
    rw [← perm_isEmpty hpp]
    by_cases hd : (dryRun
        || ((dedupPairs [] (pairStream content tm1 doc)).map Prod.snd).isEmpty) = true
    · rw [if_pos hd, if_pos hd]
    · rw [if_neg hd, if_neg hd, ApplyPatches_perm hpp hspan]

/-- dictTwo and dictTwoRev: the same two-entry dictionary in two iteration
orders. -/
def dictTwo : List (List Char × Term) :=
  [("Vite".toList, ⟨"Vite".toList, "ヴィート".toList, []⟩),
   ("gRPC".toList, ⟨"gRPC".toList, "ジーアールピーシー".toList, []⟩)]

/-- dictTwoRev is dictTwo in the opposite iteration order. -/
def dictTwoRev : List (List Char × Term) :=
  [("gRPC".toList, ⟨"gRPC".toList, "ジーアールピーシー".toList, []⟩),
   ("Vite".toList, ⟨"Vite".toList, "ヴィート".toList, []⟩)]

/-- Witness for C9 at a concrete document and dictionary permutation. -/
theorem claim_C9_witness :
    (List.Perm dictTwo dictTwoRev ∧ (dictTwo.map Prod.fst).Nodup ∧
      (∀ kv ∈ dictTwo, kv.1 ≠ [])) ∧
    ProcessMarkdown "Vite and gRPC".toList false true false dictTwo (docOneText 0 13)
      = ProcessMarkdown "Vite and gRPC".toList false true false dictTwoRev
          (docOneText 0 13) :=
  ⟨⟨by decide, by decide, by decide⟩,
    claim_C9 "Vite and gRPC".toList false false dictTwo dictTwoRev (docOneText 0 13)
      (by decide) (by decide) (by decide)⟩

end Rubi
